import Mathlib

/-!
# Verification of the souffle lattice-extension middle-end

Shallow embedding of the clause-normalisation analysis
(`src/ast/analysis/ClauseNormalisation.cpp`), the program-minimisation
transformer (`src/ast/transform/MinimiseProgram.cpp`), the SIPS-directed
literal-reordering transformer (`src/ast/transform/ReorderLiterals.cpp`)
and the parser-driver directive handling (`src/parser/ParserDriver.cpp`),
together with proofs about the spec-level properties of those components.

AST classes (`Atom.h`, `BinaryConstraint.h`, ...) are translated to tagged
inductive types; `operator==` on AST nodes (typeid test followed by
field-wise `equal`) becomes structural decidable equality. Collaborator
classes whose sources are not part of the repository fragment
(`BindingStore`, `AstProgram` clause storage, `AstClause` construction)
are modelled from the specification and are marked as such.
-/

namespace Souffle

/-- `AstQualifiedName`: an ordered sequence of identifier segments
(`QualifiedName.h`); `prepend` conses a segment at the front. -/
abbrev QualifiedName := List String

mutual

/-- `AstArgument` variants (`Argument.h` hierarchy): Variable,
UnnamedVariable, NumericConstant (kept as its printed form including the
type tag), StringConstant, NilConstant, functors (intrinsic or
user-defined, both unhandled by the normaliser), RecordInit (unhandled by
the normaliser) and Aggregator (operator tag, optional target expression
— a list of at most one argument — and body literals). Argument and
literal sequences use the dedicated mutual list types `ArgList` and
`LitList`. -/
inductive Arg where
  | var (name : String)
  | unnamed
  | numCst (printed : String)
  | strCst (value : String)
  | nilCst
  | functor (name : String) (args : ArgList)
  | recordInit (args : ArgList)
  | agg (op : String) (target : ArgList) (body : LitList)

/-- A sequence of arguments. -/
inductive ArgList where
  | nil
  | cons (hd : Arg) (tl : ArgList)

/-- `AstAtom` (`Atom.h`): a qualified relation name, a concrete-argument
sequence and a lattice-argument sequence. -/
inductive Atom where
  | mk (name : QualifiedName) (concrete : ArgList) (lattice : ArgList)

/-- `AstLiteral` variants (`Literal.h` hierarchy): an atom, a negation
(wrapping an atom), a binary constraint (operator symbol as produced by
`toBinaryConstraintSymbol`, LHS, RHS), or any other literal kind the
normaliser does not model (kept as its printed form). -/
inductive Lit where
  | atom (a : Atom)
  | neg (a : Atom)
  | bc (op : String) (lhs rhs : Arg)
  | other (printed : String)

/-- A sequence of literals. -/
inductive LitList where
  | nil
  | cons (hd : Lit) (tl : LitList)

end

/-- View an `ArgList` as a `List`. -/
def ArgList.toList : ArgList → List Arg
  | .nil => []
  | .cons a t => a :: ArgList.toList t

/-- Build an `ArgList` from a `List`. -/
def ArgList.ofList : List Arg → ArgList
  | [] => .nil
  | a :: t => .cons a (ArgList.ofList t)

/-- View a `LitList` as a `List`. -/
def LitList.toList : LitList → List Lit
  | .nil => []
  | .cons a t => a :: LitList.toList t

/-- Build a `LitList` from a `List`. -/
def LitList.ofList : List Lit → LitList
  | [] => .nil
  | a :: t => .cons a (LitList.ofList t)

/-!
Structural equality on AST nodes. `AstNode::operator==` compares the
dynamic types and then runs the field-wise recursive `equal` overrides
(`Atom.h`, `BinaryConstraint.h`, ...): this is exactly propositional
equality of the tagged representation, decided below.
-/

mutual

def Arg.beq : Arg → Arg → Bool
  | .var n, .var m => n == m
  | .unnamed, .unnamed => true
  | .numCst a, .numCst b => a == b
  | .strCst a, .strCst b => a == b
  | .nilCst, .nilCst => true
  | .functor n xs, .functor m ys => n == m && Arg.beqList xs ys
  | .recordInit xs, .recordInit ys => Arg.beqList xs ys
  | .agg o t b, .agg o2 t2 b2 => o == o2 && Arg.beqList t t2 && Lit.beqList b b2
  | _, _ => false
termination_by structural a _ => a

def Arg.beqList : ArgList → ArgList → Bool
  | .nil, .nil => true
  | .cons x xs, .cons y ys => Arg.beq x y && Arg.beqList xs ys
  | _, _ => false
termination_by structural a _ => a

def Atom.beq : Atom → Atom → Bool
  | .mk n c l, .mk n2 c2 l2 => n == n2 && Arg.beqList c c2 && Arg.beqList l l2
termination_by structural a _ => a

def Lit.beq : Lit → Lit → Bool
  | .atom a, .atom b => Atom.beq a b
  | .neg a, .neg b => Atom.beq a b
  | .bc o l r, .bc o2 l2 r2 => o == o2 && Arg.beq l l2 && Arg.beq r r2
  | .other a, .other b => a == b
  | _, _ => false
termination_by structural a _ => a

def Lit.beqList : LitList → LitList → Bool
  | .nil, .nil => true
  | .cons x xs, .cons y ys => Lit.beq x y && Lit.beqList xs ys
  | _, _ => false
termination_by structural a _ => a

end

mutual

theorem Arg.eq_of_beqArg : ∀ {a b : Arg}, Arg.beq a b = true → a = b
  | .var n, .var m, h => by
      simp only [Arg.beq, beq_iff_eq] at h ; rw [h]
  | .unnamed, .unnamed, _ => rfl
  | .numCst a, .numCst b, h => by
      simp only [Arg.beq, beq_iff_eq] at h ; rw [h]
  | .strCst a, .strCst b, h => by
      simp only [Arg.beq, beq_iff_eq] at h ; rw [h]
  | .nilCst, .nilCst, _ => rfl
  | .functor n xs, .functor m ys, h => by
      simp only [Arg.beq, Bool.and_eq_true, beq_iff_eq] at h
      rw [h.1, Arg.eq_of_beqArgList h.2]
  | .recordInit xs, .recordInit ys, h => by
      simp only [Arg.beq] at h
      rw [Arg.eq_of_beqArgList h]
  | .agg o t b, .agg o2 t2 b2, h => by
      simp only [Arg.beq, Bool.and_eq_true, beq_iff_eq] at h
      rw [h.1.1, Arg.eq_of_beqArgList h.1.2, Lit.eq_of_beqLitList h.2]
  | .var _, .unnamed, h | .var _, .numCst _, h | .var _, .strCst _, h
  | .var _, .nilCst, h | .var _, .functor _ _, h | .var _, .recordInit _, h
  | .var _, .agg _ _ _, h
  | .unnamed, .var _, h | .unnamed, .numCst _, h | .unnamed, .strCst _, h
  | .unnamed, .nilCst, h | .unnamed, .functor _ _, h | .unnamed, .recordInit _, h
  | .unnamed, .agg _ _ _, h
  | .numCst _, .var _, h | .numCst _, .unnamed, h | .numCst _, .strCst _, h
  | .numCst _, .nilCst, h | .numCst _, .functor _ _, h | .numCst _, .recordInit _, h
  | .numCst _, .agg _ _ _, h
  | .strCst _, .var _, h | .strCst _, .unnamed, h | .strCst _, .numCst _, h
  | .strCst _, .nilCst, h | .strCst _, .functor _ _, h | .strCst _, .recordInit _, h
  | .strCst _, .agg _ _ _, h
  | .nilCst, .var _, h | .nilCst, .unnamed, h | .nilCst, .numCst _, h
  | .nilCst, .strCst _, h | .nilCst, .functor _ _, h | .nilCst, .recordInit _, h
  | .nilCst, .agg _ _ _, h
  | .functor _ _, .var _, h | .functor _ _, .unnamed, h | .functor _ _, .numCst _, h
  | .functor _ _, .strCst _, h | .functor _ _, .nilCst, h
  | .functor _ _, .recordInit _, h | .functor _ _, .agg _ _ _, h
  | .recordInit _, .var _, h | .recordInit _, .unnamed, h | .recordInit _, .numCst _, h
  | .recordInit _, .strCst _, h | .recordInit _, .nilCst, h
  | .recordInit _, .functor _ _, h | .recordInit _, .agg _ _ _, h
  | .agg _ _ _, .var _, h | .agg _ _ _, .unnamed, h | .agg _ _ _, .numCst _, h
  | .agg _ _ _, .strCst _, h | .agg _ _ _, .nilCst, h
  | .agg _ _ _, .functor _ _, h | .agg _ _ _, .recordInit _, h => by
      simp only [Arg.beq] at h ; exact Bool.noConfusion h

theorem Arg.eq_of_beqArgList : ∀ {xs ys : ArgList}, Arg.beqList xs ys = true → xs = ys
  | .nil, .nil, _ => rfl
  | .cons x xs, .cons y ys, h => by
      simp only [Arg.beqList, Bool.and_eq_true] at h
      rw [Arg.eq_of_beqArg h.1, Arg.eq_of_beqArgList h.2]
  | .nil, .cons _ _, h | .cons _ _, .nil, h => by
      simp only [Arg.beqList] at h ; exact Bool.noConfusion h

theorem Atom.eq_of_beqAtom : ∀ {a b : Atom}, Atom.beq a b = true → a = b
  | .mk n c l, .mk n2 c2 l2, h => by
      simp only [Atom.beq, Bool.and_eq_true, beq_iff_eq] at h
      rw [h.1.1, Arg.eq_of_beqArgList h.1.2, Arg.eq_of_beqArgList h.2]

theorem Lit.eq_of_beqLit : ∀ {a b : Lit}, Lit.beq a b = true → a = b
  | .atom a, .atom b, h => by
      simp only [Lit.beq] at h ; rw [Atom.eq_of_beqAtom h]
  | .neg a, .neg b, h => by
      simp only [Lit.beq] at h ; rw [Atom.eq_of_beqAtom h]
  | .bc o l r, .bc o2 l2 r2, h => by
      simp only [Lit.beq, Bool.and_eq_true, beq_iff_eq] at h
      rw [h.1.1, Arg.eq_of_beqArg h.1.2, Arg.eq_of_beqArg h.2]
  | .other a, .other b, h => by
      simp only [Lit.beq, beq_iff_eq] at h ; rw [h]
  | .atom _, .neg _, h | .atom _, .bc _ _ _, h | .atom _, .other _, h
  | .neg _, .atom _, h | .neg _, .bc _ _ _, h | .neg _, .other _, h
  | .bc _ _ _, .atom _, h | .bc _ _ _, .neg _, h | .bc _ _ _, .other _, h
  | .other _, .atom _, h | .other _, .neg _, h | .other _, .bc _ _ _, h => by
      simp only [Lit.beq] at h ; exact Bool.noConfusion h

theorem Lit.eq_of_beqLitList : ∀ {xs ys : LitList}, Lit.beqList xs ys = true → xs = ys
  | .nil, .nil, _ => rfl
  | .cons x xs, .cons y ys, h => by
      simp only [Lit.beqList, Bool.and_eq_true] at h
      rw [Lit.eq_of_beqLit h.1, Lit.eq_of_beqLitList h.2]
  | .nil, .cons _ _, h | .cons _ _, .nil, h => by
      simp only [Lit.beqList] at h ; exact Bool.noConfusion h

end

mutual

theorem Arg.beqArg_refl : ∀ (a : Arg), Arg.beq a a = true
  | .var _ => by simp [Arg.beq]
  | .unnamed => by simp [Arg.beq]
  | .numCst _ => by simp [Arg.beq]
  | .strCst _ => by simp [Arg.beq]
  | .nilCst => by simp [Arg.beq]
  | .functor _ xs => by simp [Arg.beq, Arg.beqArgList_refl xs]
  | .recordInit xs => by simp [Arg.beq, Arg.beqArgList_refl xs]
  | .agg _ t b => by simp [Arg.beq, Arg.beqArgList_refl t, Lit.beqLitList_refl b]

theorem Arg.beqArgList_refl : ∀ (xs : ArgList), Arg.beqList xs xs = true
  | .nil => by simp [Arg.beqList]
  | .cons x xs => by simp [Arg.beqList, Arg.beqArg_refl x, Arg.beqArgList_refl xs]

theorem Atom.beqAtom_refl : ∀ (a : Atom), Atom.beq a a = true
  | .mk _ c l => by simp [Atom.beq, Arg.beqArgList_refl c, Arg.beqArgList_refl l]

theorem Lit.beqLit_refl : ∀ (a : Lit), Lit.beq a a = true
  | .atom a => by simp only [Lit.beq] ; exact Atom.beqAtom_refl a
  | .neg a => by simp only [Lit.beq] ; exact Atom.beqAtom_refl a
  | .bc _ l r => by simp [Lit.beq, Arg.beqArg_refl l, Arg.beqArg_refl r]
  | .other _ => by simp [Lit.beq]

theorem Lit.beqLitList_refl : ∀ (xs : LitList), Lit.beqList xs xs = true
  | .nil => by simp [Lit.beqList]
  | .cons x xs => by simp [Lit.beqList, Lit.beqLit_refl x, Lit.beqLitList_refl xs]

end

instance : DecidableEq Arg := fun a b =>
  decidable_of_iff (Arg.beq a b = true)
    ⟨Arg.eq_of_beqArg, fun h => h ▸ Arg.beqArg_refl a⟩

instance : DecidableEq ArgList := fun a b =>
  decidable_of_iff (Arg.beqList a b = true)
    ⟨Arg.eq_of_beqArgList, fun h => h ▸ Arg.beqArgList_refl a⟩

instance : DecidableEq Atom := fun a b =>
  decidable_of_iff (Atom.beq a b = true)
    ⟨Atom.eq_of_beqAtom, fun h => h ▸ Atom.beqAtom_refl a⟩

instance : DecidableEq Lit := fun a b =>
  decidable_of_iff (Lit.beq a b = true)
    ⟨Lit.eq_of_beqLit, fun h => h ▸ Lit.beqLit_refl a⟩

instance : DecidableEq LitList := fun a b =>
  decidable_of_iff (Lit.beqList a b = true)
    ⟨Lit.eq_of_beqLitList, fun h => h ▸ Lit.beqLitList_refl a⟩

namespace Atom

/-- `AstAtom::getQualifiedName`. -/
def name : Atom → QualifiedName
  | .mk n _ _ => n

/-- `AstAtom::getConcreteArguments`. -/
def concreteArgs : Atom → List Arg
  | .mk _ c _ => c.toList

/-- `AstAtom::getLatticeArguments`. -/
def latticeArgs : Atom → List Arg
  | .mk _ _ l => l.toList

/-- `AstAtom::getConcreteArity`. -/
def concreteArity (a : Atom) : Nat := a.concreteArgs.length

/-- `AstAtom::getLatticeArity`. -/
def latticeArity (a : Atom) : Nat := a.latticeArgs.length

end Atom

/-- Modelled from the spec: `isProposition` (from `ast/utility/Utils`,
not part of the repository fragment) holds of an atom with no arguments
("any proposition (arity 0)"). -/
def isProposition (a : Atom) : Bool :=
  a.concreteArity == 0 && a.latticeArity == 0

/-- An execution plan (`AstExecutionPlan`); its contents are irrelevant
to the claims, only its presence or absence matters. -/
structure ExecutionPlan where
  versions : List (List Nat)
  deriving DecidableEq, Repr

/-- A source location (`SrcLocation`); modelled as an opaque coordinate
tuple. The default-constructed location is `⟨0, 0⟩`. -/
structure SrcLocation where
  line : Nat
  column : Nat
  deriving DecidableEq, Repr

instance : Inhabited SrcLocation := ⟨⟨0, 0⟩⟩

/-- Modelled from the spec: `AstClause` (`Clause.h` is not part of the
repository fragment): "A head Atom, an ordered sequence of body Literals,
an optional execution plan ..., and a source location."
`std::make_unique<AstClause>()` default-constructs a clause with no plan
and a default source location. -/
structure Clause where
  head : Atom
  body : List Lit
  plan : Option ExecutionPlan := none
  loc : SrcLocation := default
  deriving DecidableEq

/-- `AstNode::operator==` between the head atom and a body literal as
used by `MinimiseProgramTransformer::removeRedundantClauses`: the typeid
test succeeds only when the literal is itself an atom, and then the
field-wise `AstAtom::equal` comparison runs. -/
def headEqualsLiteral (head : Atom) : Lit → Bool
  | .atom a => head == a
  | _ => false

/-! ## Clause normalisation (`ClauseNormalisation.cpp`)

`NormalisedClause::normaliseArgument` renames the k-th unnamed variable
to `@min:unnamed:`k using a **function-local `static` counter**
(`static size_t countUnnamed = 0;`), which persists across clauses and
across repeated normalisations of the same clause. The embedding makes
that process-global counter an explicit input/output value. -/

/-- `NormalisedClause::NormalisedClauseElement`. -/
structure NormElem where
  name : QualifiedName
  concreteParams : List String
  latticeParams : List String
  deriving DecidableEq

/-- `NormalisedClause`: the canonical form of a clause. `variables` and
`constants` model the `std::set<std::string>` members as sorted
duplicate-free lists (the set's iteration order). -/
structure NormalisedClause where
  fullyNormalised : Bool := true
  aggrScopeCount : Nat := 0
  vars : List String := []
  constants : List String := []
  clauseElements : List NormElem := []
  deriving DecidableEq

/-- Lexicographic `operator<` on character lists, the comparison
`std::set<std::string>` orders its elements by. -/
def charListLt : List Char → List Char → Bool
  | [], [] => false
  | [], _ :: _ => true
  | _ :: _, [] => false
  | a :: as, b :: bs =>
      if a.val.toNat < b.val.toNat then true
      else if b.val.toNat < a.val.toNat then false
      else charListLt as bs

/-- `operator<` on `std::string`. -/
def strLt (a b : String) : Bool := charListLt a.data b.data

/-- Ordered insertion into a `std::set<std::string>` model. -/
def setInsert (s : String) : List String → List String
  | [] => [s]
  | x :: rest =>
      if strLt s x then s :: x :: rest
      else if s = x then x :: rest
      else x :: setInsert s rest

/-- The state of a normalisation run: the `NormalisedClause` being built
plus the value of the function-local static `countUnnamed`. -/
structure NormState where
  nc : NormalisedClause
  unnamedCounter : Nat
  deriving DecidableEq

namespace NormState

def insertVariable (v : String) (st : NormState) : NormState :=
  { st with nc := { st.nc with vars := setInsert v st.nc.vars } }

def insertConstant (c : String) (st : NormState) : NormState :=
  { st with nc := { st.nc with constants := setInsert c st.nc.constants } }

def pushElement (e : NormElem) (st : NormState) : NormState :=
  { st with nc := { st.nc with clauseElements := st.nc.clauseElements ++ [e] } }

def setNotFullyNormalised (st : NormState) : NormState :=
  { st with nc := { st.nc with fullyNormalised := false } }

end NormState

mutual

/-- `NormalisedClause::normaliseArgument`: returns the string identifier
of the argument and the updated state. -/
def normaliseArgument (st : NormState) : Arg → String × NormState
  | .strCst v =>
      let name := "@min:cst:str\"" ++ v ++ "\""
      (name, st.insertConstant name)
  | .numCst printed =>
      let name := "@min:cst:num:" ++ printed
      (name, st.insertConstant name)
  | .nilCst => ("@min:cst:nil", st.insertConstant "@min:cst:nil")
  | .var v => (v, st.insertVariable v)
  | .unnamed =>
      let name := "@min:unnamed:" ++ toString st.unnamedCounter
      let st := { st with unnamedCounter := st.unnamedCounter + 1 }
      (name, st.insertVariable name)
  | .agg op target body =>
      let newScope := st.nc.aggrScopeCount + 1
      let st1 := { st with nc := { st.nc with aggrScopeCount := newScope } }
      let scopeID := "@min:scope:" ++ toString newScope
      let st2 := st1.insertVariable scopeID
      let aggrTypeSignature := "@min:aggrtype:" ++ op
      let ts := normaliseArgList st2 target
      let components := scopeID :: ts.1
      let st3 := ts.2.pushElement ⟨[aggrTypeSignature], components, []⟩
      let st4 := addClauseBodyLitList scopeID st3 body
      (scopeID, st4)
  | .functor _ _ => ("@min:unhandled:arg", st.setNotFullyNormalised)
  | .recordInit _ => ("@min:unhandled:arg", st.setNotFullyNormalised)
termination_by structural a => a

/-- Normalise a sequence of arguments in order (the argument loops of
the constructor and of `addClauseAtom`). -/
def normaliseArgList (st : NormState) : ArgList → List String × NormState
  | .nil => ([], st)
  | .cons a rest =>
      let p := normaliseArgument st a
      let q := normaliseArgList p.2 rest
      (p.1 :: q.1, q.2)
termination_by structural a => a

/-- `NormalisedClause::addClauseAtom`. -/
def addClauseAtom (qualifier scopeID : String) (st : NormState) (a : Atom) : NormState :=
  match a with
  | .mk name concrete lattice =>
      let cs := normaliseArgList st concrete
      let ls := normaliseArgList cs.2 lattice
      ls.2.pushElement ⟨qualifier :: name, scopeID :: cs.1, scopeID :: ls.1⟩
termination_by structural a

/-- `NormalisedClause::addClauseBodyLiteral`. -/
def addClauseBodyLiteral (scopeID : String) (st : NormState) : Lit → NormState
  | .atom a => addClauseAtom "@min:atom" scopeID st a
  | .neg a => addClauseAtom "@min:neg" scopeID st a
  | .bc op lhs rhs =>
      let l := normaliseArgument st lhs
      let r := normaliseArgument l.2 rhs
      r.2.pushElement ⟨["@min:operator", op], [scopeID, l.1, r.1], []⟩
  | .other printed =>
      let st := st.setNotFullyNormalised
      st.pushElement ⟨["@min:unhandled:lit:" ++ scopeID, printed], [], []⟩
termination_by structural a => a

def addClauseBodyLitList (scopeID : String) (st : NormState) : LitList → NormState
  | .nil => st
  | .cons l rest => addClauseBodyLitList scopeID (addClauseBodyLiteral scopeID st l) rest
termination_by structural a => a

end

/-- The body-literal loop of the `NormalisedClause` constructor, over the
clause's body list. -/
def addClauseBodyLiterals (scopeID : String) (st : NormState) : List Lit → NormState
  | [] => st
  | l :: rest => addClauseBodyLiterals scopeID (addClauseBodyLiteral scopeID st l) rest

/-- `NormalisedClause::NormalisedClause(const AstClause*)`: normalise the
head under the fixed name `@min:head`, then each body literal at scope
`@min:scope:0`. `counter` is the incoming value of the function-local
static `countUnnamed`; the updated value is returned alongside. -/
def normaliseClause (c : Clause) (counter : Nat) : NormalisedClause × Nat :=
  match c.head with
  | .mk _ hc hl =>
      let st0 : NormState := ⟨{}, counter⟩
      let cs := normaliseArgList st0 hc
      let ls := normaliseArgList cs.2 hl
      let st3 := ls.2.pushElement ⟨["@min:head"], cs.1, ls.1⟩
      let st4 := addClauseBodyLiterals "@min:scope:0" st3 c.body
      (st4.nc, st4.unnamedCounter)

/-! ## SIPS-directed literal reordering (`ReorderLiterals.cpp`) -/

/-- Modelled from the spec: the `BindingStore` (from
`ast/utility/BindingStore`, not part of the repository fragment) maps each
variable name to a binding strength; for the reordering pass only the set
of bound variable names matters ("variables bound at any non-Unbound
level"). We model it as that set. -/
structure BindingStore where
  boundVars : List String
  deriving DecidableEq, Repr

/-- `BindingStore::isBound`: the variable is bound at some non-Unbound
level. -/
def BindingStore.isBound (bs : BindingStore) (v : String) : Bool :=
  bs.boundVars.contains v

/-- `BindingStore::bindVariableStrongly`: after this call the variable is
bound. -/
def BindingStore.bindVariableStrongly (bs : BindingStore) (v : String) : BindingStore :=
  ⟨v :: bs.boundVars⟩

mutual

/-- The free variables occurring in an argument (used to model
groundedness of non-variable terms and the variable visit of the
`least-free-vars` policy). -/
def Arg.freeVars : Arg → List String
  | .var n => [n]
  | .unnamed => []
  | .numCst _ => []
  | .strCst _ => []
  | .nilCst => []
  | .functor _ args => Arg.freeVarsList args
  | .recordInit args => Arg.freeVarsList args
  | .agg _ t body => Arg.freeVarsList t ++ Lit.freeVarsList body
termination_by structural a => a

def Arg.freeVarsList : ArgList → List String
  | .nil => []
  | .cons a rest => Arg.freeVars a ++ Arg.freeVarsList rest
termination_by structural a => a

def Lit.freeVars : Lit → List String
  | .atom (.mk _ c l) => Arg.freeVarsList c ++ Arg.freeVarsList l
  | .neg (.mk _ c l) => Arg.freeVarsList c ++ Arg.freeVarsList l
  | .bc _ lhs rhs => Arg.freeVars lhs ++ Arg.freeVars rhs
  | .other _ => []
termination_by structural a => a

def Lit.freeVarsList : LitList → List String
  | .nil => []
  | .cons l rest => Lit.freeVars l ++ Lit.freeVarsList rest
termination_by structural a => a

end

mutual

/-- Whether an argument contains no unnamed variable (the condition
under which normalisation never consults the static counter). -/
def Arg.noUnnamed : Arg → Bool
  | .var _ => true
  | .unnamed => false
  | .numCst _ => true
  | .strCst _ => true
  | .nilCst => true
  | .functor _ args => Arg.noUnnamedList args
  | .recordInit args => Arg.noUnnamedList args
  | .agg _ t b => Arg.noUnnamedList t && Lit.noUnnamedList b
termination_by structural a => a

def Arg.noUnnamedList : ArgList → Bool
  | .nil => true
  | .cons a rest => Arg.noUnnamed a && Arg.noUnnamedList rest
termination_by structural a => a

def Atom.noUnnamed : Atom → Bool
  | .mk _ c l => Arg.noUnnamedList c && Arg.noUnnamedList l
termination_by structural a => a

def Lit.noUnnamed : Lit → Bool
  | .atom a => Atom.noUnnamed a
  | .neg a => Atom.noUnnamed a
  | .bc _ lhs rhs => Arg.noUnnamed lhs && Arg.noUnnamed rhs
  | .other _ => true
termination_by structural a => a

def Lit.noUnnamedList : LitList → Bool
  | .nil => true
  | .cons l rest => Lit.noUnnamed l && Lit.noUnnamedList rest
termination_by structural a => a

end

/-- Whether a clause contains no unnamed variable. -/
def Clause.noUnnamed (c : Clause) : Bool :=
  Atom.noUnnamed c.head && c.body.all Lit.noUnnamed

/-- Modelled from the spec: `BindingStore::numBoundArguments` —
"counts concrete-argument positions whose Argument is grounded given the
current binding state (variables bound at any non-Unbound level, or
non-variable terms whose free variables are all bound)". -/
def BindingStore.numBoundArguments (bs : BindingStore) (a : Atom) : Nat :=
  (a.concreteArgs.filter (fun arg =>
    match arg with
    | .var n => bs.isBound n
    | other => other.freeVars.all bs.isBound)).length

/-- A SIPS function (`sips_t`): takes the remaining atoms (consumed slots
are `none`, mirroring the nulled-out pointers) and the binding store, and
returns the index of the chosen atom. -/
abbrev Sips := List (Option Atom) → BindingStore → Nat

/-- The first index holding a non-null atom, or `0` as the fallback
(`ReorderLiterals.cpp`, the trailing "first non-null" loops). -/
def firstNonNull (atoms : List (Option Atom)) : Nat :=
  match atoms.findIdx? (fun a => a.isSome) with
  | some i => i
  | none => 0

/-- The `"all-bound"` SIPS of
`ReorderLiteralsTransformer::getSipsFunction`: the first proposition, else
the first atom all of whose concrete arguments are bound, else the first
non-null atom. -/
def sipsAllBound (atoms : List (Option Atom)) (bs : BindingStore) : Nat :=
  match atoms.findIdx? (fun oa =>
    match oa with
    | none => false
    | some a => isProposition a || (bs.numBoundArguments a == a.concreteArity)) with
  | some i => i
  | none => firstNonNull atoms

/-- The `"least-free-vars"` SIPS of
`ReorderLiteralsTransformer::getSipsFunction`: the first proposition wins
immediately; otherwise, for each remaining atom the code collects into a
set the names of the variables `v` occurring in the atom **for which
`bindingStore.isBound(v)` holds**, and the atom minimising the size of
that set is chosen, ties broken to the earliest index. -/
def sipsLeastFreeVars (atoms : List (Option Atom)) (bs : BindingStore) : Nat :=
  let count := fun (a : Atom) =>
    ((Lit.freeVars (.atom a)).filter bs.isBound).dedup.length
  let rec go (rest : List (Option Atom)) (idx : Nat)
      (currLeastFree : Option Nat) (currLeastIdx : Nat) : Nat :=
    match rest with
    | [] => currLeastIdx
    | none :: tl => go tl (idx + 1) currLeastFree currLeastIdx
    | some a :: tl =>
        if isProposition a then idx
        else
          let n := count a
          match currLeastFree with
          | none => go tl (idx + 1) (some n) idx
          | some m => if n < m then go tl (idx + 1) (some n) idx
                      else go tl (idx + 1) (some m) currLeastIdx
  go atoms 0 none 0

/-- The number of distinct variables occurring in an atom that are
*unbound* in the binding store — the quantity the specification says the
`"least-free-vars"` policy minimises. -/
def distinctUnboundVarCount (bs : BindingStore) (a : Atom) : Nat :=
  ((Lit.freeVars (.atom a)).filter (fun v => !bs.isBound v)).dedup.length

/-- The atoms among the body literals, in order
(`getBodyLiterals<AstAtom>`). -/
def bodyAtoms (c : Clause) : List Atom :=
  c.body.filterMap (fun l => match l with | .atom a => some a | _ => none)

/-- One step of the greedy loop of
`ReorderLiteralsTransformer::getOrderingAfterSIPS`: choose the next atom,
strongly bind every concrete-argument variable of it, and null it out. -/
def sipsStep (sips : Sips) (atoms : List (Option Atom)) (bs : BindingStore) :
    Nat × List (Option Atom) × BindingStore :=
  let nextIdx := sips atoms bs
  match atoms.get? nextIdx with
  | some (some nextAtom) =>
      let bs' := nextAtom.concreteArgs.foldl (fun acc arg =>
        match arg with
        | .var n => acc.bindVariableStrongly n
        | _ => acc) bs
      (nextIdx, atoms.set nextIdx none, bs')
  | _ => (nextIdx, atoms.set nextIdx none, bs)

/-- The greedy loop of `getOrderingAfterSIPS`, by fuel (the loop runs
exactly `atoms.length` times). -/
def sipsLoop (sips : Sips) : Nat → List (Option Atom) → BindingStore → List Nat
  | 0, _, _ => []
  | fuel + 1, atoms, bs =>
      let (idx, atoms', bs') := sipsStep sips atoms bs
      idx :: sipsLoop sips fuel atoms' bs'

/-- `ReorderLiteralsTransformer::getOrderingAfterSIPS`, with the initial
binding store passed explicitly (its construction from the clause is a
collaborator; a clause in which no variable is pre-bound yields the empty
store). `newOrder[k]` is the index (among the body atoms, in source
order) of the atom evaluated `k`-th. -/
def getOrderingAfterSIPS (sips : Sips) (bs0 : BindingStore) (c : Clause) : List Nat :=
  let atoms := bodyAtoms c
  sipsLoop sips atoms.length (atoms.map some) bs0

/-- Modelled from the spec: the `reorderAtoms` helper (from
`ast/utility/Utils`, not part of the repository fragment) — "An atom's own
position within the ordering is determined by its index among atoms only".
For a clause whose body consists of atoms only, the reordered body places
atom `newOrder[k]` at position `k`. -/
def reorderAtomsOnly (atoms : List Atom) (newOrder : List Nat) : List Atom :=
  newOrder.filterMap (fun i => atoms.get? i)

/-- `ReorderLiteralsTransformer::reorderClauseWithSips`: clauses with an
execution plan are skipped; otherwise the SIPS ordering is computed and
the clause is rebuilt only when the ordering is not the identity. Returns
`none` when the clause is left untouched. -/
def reorderClauseWithSips (sips : Sips) (bs0 : BindingStore) (c : Clause) :
    Option (List Nat) :=
  if c.plan.isSome then none
  else
    let newOrdering := getOrderingAfterSIPS sips bs0 c
    let changeNeeded := (List.range newOrdering.length).any
      (fun i => newOrdering.getD i i ≠ i)
    if changeNeeded then some newOrdering else none

/-! ## Bijective equivalence of normalised clauses (`MinimiseProgram.cpp`) -/

/-- The default `NormalisedClauseElement` (stands in for the
out-of-bounds `elements[0]` access on an element-free clause, which in
the C++ code is unreachable: every normalised clause has a head
element). -/
def defaultElem : NormElem := ⟨[], [], []⟩

/-- The initial `variableMap` of
`MinimiseProgramTransformer::isValidPermutation` as a total function:
`std::map` keys are first set to `cst ↦ cst` for the left constants, then
overwritten to `var ↦ ""` for the left variables; a lookup of any other
string default-constructs the empty string. -/
def initVarMap (left : NormalisedClause) : String → String := fun s =>
  if s ∈ left.vars then "" else if s ∈ left.constants then s else ""

/-- The argument scan of `isValidPermutation`, over a list of
(left argument, corresponding right argument) pairs: an unassigned
(empty-string) entry is assigned to the right-hand identifier; an
assigned entry must reproduce it. -/
def scanPairs (m : String → String) : List (String × String) → Bool
  | [] => true
  | (s, t) :: rest =>
      if m s = "" then scanPairs (Function.update m s t) rest
      else if m s = t then scanPairs m rest
      else false

/-- The pairs scanned by `isValidPermutation` under a permutation
`perm`: for the `i`-th left element, its concrete parameters are paired
position-wise with those of right element `perm[i]`, then its lattice
parameters likewise. -/
def alignedPairs (left right : NormalisedClause) (perm : List Nat) :
    List (String × String) :=
  (left.clauseElements.zip perm).flatMap (fun p =>
    let rel := right.clauseElements.getD p.2 defaultElem
    p.1.concreteParams.zip rel.concreteParams ++
      p.1.latticeParams.zip rel.latticeParams)

/-- `MinimiseProgramTransformer::isValidPermutation`. -/
def isValidPermutation (left right : NormalisedClause) (perm : List Nat) : Bool :=
  scanPairs (initVarMap left) (alignedPairs left right perm)

/-- The rows of candidate columns extracted from the permutation matrix
(`validMoves` in `existsValidPermutation`): row `i` lists, in ascending
order, the columns `j` whose element name matches. -/
def validMoves (left right : NormalisedClause) : List (List Nat) :=
  let n := left.clauseElements.length
  (List.range n).map (fun i =>
    (List.range n).filter (fun j =>
      (left.clauseElements.getD i defaultElem).name =
        (right.clauseElements.getD j defaultElem).name))

/-- The depth-first permutation search of
`MinimiseProgramTransformer::existsValidPermutation`: at each position
try the candidate columns in order, skipping columns already chosen
(`seen`), and test `isValidPermutation` on each complete permutation,
returning at the first valid one. `chosen` holds the columns picked so
far in reverse order. -/
def permSearch (left right : NormalisedClause) :
    List (List Nat) → List Nat → Bool
  | [], chosen => isValidPermutation left right chosen.reverse
  | row :: rest, chosen =>
      row.any (fun j =>
        if j ∈ chosen then false
        else permSearch left right rest (j :: chosen))

/-- `MinimiseProgramTransformer::existsValidPermutation`. -/
def existsValidPermutation (left right : NormalisedClause) : Bool :=
  permSearch left right (validMoves left right) []

/-- `MinimiseProgramTransformer::areBijectivelyEquivalent`, with the
checks in source order: both fully normalised, equal element counts,
equal head concrete and lattice arities, equal distinct-variable counts,
identical constant sets, and then the permutation search. -/
def areBijectivelyEquivalent (left right : NormalisedClause) : Bool :=
  if !left.fullyNormalised || !right.fullyNormalised then false
  else if left.clauseElements.length ≠ right.clauseElements.length then false
  else if (left.clauseElements.getD 0 defaultElem).concreteParams.length ≠
      (right.clauseElements.getD 0 defaultElem).concreteParams.length then false
  else if (left.clauseElements.getD 0 defaultElem).latticeParams.length ≠
      (right.clauseElements.getD 0 defaultElem).latticeParams.length then false
  else if left.vars.length ≠ right.vars.length then false
  else if left.constants ≠ right.constants then false
  else existsValidPermutation left right

/-- The string identifying the top-level body scope
(`"@min:scope:0"`). -/
def baseScope : String := "@min:scope:0"

/-- All parameter strings of a normalised-clause element. -/
def NormElem.params (e : NormElem) : List String :=
  e.concreteParams ++ e.latticeParams

/-- All parameter strings occurring in a normalised clause. -/
def occParams (N : NormalisedClause) : List String :=
  N.clauseElements.flatMap NormElem.params

/-- Well-formedness of a `NormalisedClause`, holding of every
normalisation the analysis produces for a clause of a real program
(where no user identifier collides with the reserved `@min:` names):
no empty-string identifiers; the variable and constant sets are
duplicate-free and disjoint; every parameter string is a variable, a
constant or the base scope token; the base scope token is neither a
variable nor a constant; every variable and every constant occurs among
the parameters; and the base scope token occurs exactly when the clause
has a body (more elements than the head). These are the preconditions
under which the bijective-equivalence procedure is used. -/
def wfNC (N : NormalisedClause) : Bool :=
  N.vars.all (fun v => v ≠ "") &&
  N.constants.all (fun c => c ≠ "") &&
  (occParams N).all (fun s => s ≠ "") &&
  N.vars.Nodup &&
  N.constants.Nodup &&
  N.vars.all (fun v => v ∉ N.constants) &&
  (occParams N).all (fun s => s ∈ N.vars ∨ s ∈ N.constants ∨ s = baseScope) &&
  (baseScope ∉ N.vars) &&
  (baseScope ∉ N.constants) &&
  N.vars.all (fun v => v ∈ occParams N) &&
  N.constants.all (fun c => c ∈ occParams N) &&
  ((baseScope ∈ occParams N) = (1 < N.clauseElements.length))

/-- Arity compatibility of a pair of normalised clauses: same-named
elements carry the same numbers of concrete and of lattice parameters
(for clauses of a well-formed program this holds because an element name
determines the relation or operator and hence its arities; the C++ scan
reads the right-hand element at the left-hand element's positions, so
this is a precondition of the procedure). -/
def arityCompatible (L R : NormalisedClause) : Bool :=
  L.clauseElements.all (fun e => R.clauseElements.all (fun r =>
    e.name ≠ r.name ∨
      (e.concreteParams.length = r.concreteParams.length ∧
        e.latticeParams.length = r.latticeParams.length)))

/-! ## Program minimisation passes (`MinimiseProgram.cpp`)

The `AstProgram` clause container is modelled as the list of clauses in
program order. `AstProgram::removeClause` (whose source is a
collaborator outside the fragment) erases the first clause that compares
structurally equal to its argument; `addClause` appends. -/

/-- Modelled from the spec: a program, reduced to what the minimisation
passes consult — its relations (qualified names, with an I/O marker
provided by the I/O-analysis collaborator) and its clauses. -/
structure Program where
  relations : List QualifiedName
  ioRelations : List QualifiedName
  clauses : List Clause
  deriving DecidableEq

/-- `AstProgram::removeClause`: erase the first structurally equal
clause. -/
def removeClauseList (cs : List Clause) (c : Clause) : List Clause :=
  match cs with
  | [] => []
  | x :: rest => if x = c then rest else x :: removeClauseList rest c

/-- The per-clause duplicate-literal scan of
`MinimiseProgramTransformer::reduceClauseBodies`: for each position `i`,
the inner loop looks for an **earlier** position `j < i` holding a
structurally equal literal and, on the first hit, inserts that earlier
position `j` into `redundantPositions`. -/
def redundantPositions (body : List Lit) : List Nat :=
  (List.range body.length).filterMap (fun i =>
    (List.range i).find? (fun j => body.getD i (.other "") = body.getD j (.other "")))

/-- The clause rebuilt by `reduceClauseBodies` when duplicates were
found: a freshly constructed clause (default execution plan and source
location) with the cloned head and the body literals at non-redundant
positions. -/
def reduceClauseBody (c : Clause) : Clause :=
  { head := c.head,
    body := (List.range c.body.length).filterMap (fun i =>
      if i ∈ redundantPositions c.body then none else c.body.get? i) }

/-- `MinimiseProgramTransformer::reduceClauseBodies` over the program:
every clause with a non-empty `redundantPositions` set is removed and its
reduced version appended. -/
def reduceClauseBodies (p : Program) : Program :=
  let affected := p.clauses.filter (fun c => !(redundantPositions c.body).isEmpty)
  let removed := affected.foldl removeClauseList p.clauses
  { p with clauses := removed ++ affected.map reduceClauseBody }

/-- The redundancy test of
`MinimiseProgramTransformer::removeRedundantClauses`: some body literal
is structurally equal to the head. -/
def isRedundantClause (c : Clause) : Bool :=
  c.body.any (fun l => headEqualsLiteral c.head l)

/-- `MinimiseProgramTransformer::removeRedundantClauses`: collect the
redundant clauses, then erase each from the program. -/
def removeRedundantClauses (p : Program) : Program :=
  let toRemove := p.clauses.filter isRedundantClause
  { p with clauses := toRemove.foldl removeClauseList p.clauses }

/-- `ClauseNormalisationAnalysis::run`: normalise every clause of the
program in order, the static unnamed-variable counter threading through
the whole run. Returns the normalisations (parallel to the clause list)
and the updated counter. -/
def normaliseProgramClauses (cs : List Clause) (counter : Nat) :
    List NormalisedClause × Nat :=
  match cs with
  | [] => ([], counter)
  | c :: rest =>
      let (n, counter') := normaliseClause c counter
      let (ns, counter'') := normaliseProgramClauses rest counter'
      (n :: ns, counter'')

/-- `getClauses(program, rel)`: the indices (in program order) of the
clauses whose head refers to the relation. -/
def clauseIndicesOf (p : Program) (rel : QualifiedName) : List Nat :=
  (List.range p.clauses.length).filter (fun i =>
    (p.clauses.getD i { head := ⟨[], .nil, .nil⟩, body := [] }).head.name = rel)

/-- The equivalence-class loop of
`MinimiseProgramTransformer::reduceLocallyEquivalentClauses` for one
relation: each clause joins the first existing class whose representative
(`eqClass[0]`) is bijectively equivalent to it — and is then marked for
deletion — or founds a new class. Only the representatives are tracked,
since only `eqClass[0]` is ever consulted. Returns the indices marked
for deletion. -/
def eqClassDeletions (norms : List NormalisedClause) :
    List Nat → List Nat → List Nat
  | [], _ => []
  | i :: rest, reps =>
      if reps.any (fun r =>
          areBijectivelyEquivalent (norms.getD r {}) (norms.getD i {})) then
        i :: eqClassDeletions norms rest reps
      else eqClassDeletions norms rest (reps ++ [i])

/-- `MinimiseProgramTransformer::reduceLocallyEquivalentClauses`.
`counter` is the incoming value of the static unnamed-variable counter
for the normalisation analysis run. Returns the program, the updated
counter and the changed flag. -/
def reduceLocallyEquivalentClauses (counter : Nat) (p : Program) :
    Program × Nat × Bool :=
  let norms := (normaliseProgramClauses p.clauses counter).1
  let deletions := p.relations.flatMap (fun rel =>
    eqClassDeletions norms (clauseIndicesOf p rel) [])
  let kept := (List.range p.clauses.length).filterMap (fun i =>
    if i ∈ deletions then none else p.clauses.get? i)
  ({ p with clauses := kept }, (normaliseProgramClauses p.clauses counter).2,
    !deletions.isEmpty)

/-- Insert into the `canonicalName` `std::map` (`std::map::insert` never
overwrites an existing key). -/
def mapInsert (key value : QualifiedName) (m : List (QualifiedName × QualifiedName)) :
    List (QualifiedName × QualifiedName) :=
  if (m.lookup key).isSome then m else m ++ [(key, value)]

/-- The pairwise equivalence loop of
`MinimiseProgramTransformer::reduceSingletonRelations` over the singleton
relation clauses (given by index into the normalisation list): for each
`i`, skipped when already redundant, every `j > i` with a bijectively
equivalent clause is marked redundant and its head relation name mapped
to the head relation name of `i`. -/
def singletonPairs (norms : List NormalisedClause) (heads : List QualifiedName)
    (idxs : List Nat) : List Nat × List (QualifiedName × QualifiedName) :=
  let step := fun (acc : List Nat × List (QualifiedName × QualifiedName)) (ij : Nat × Nat) =>
    let (i, j) := ij
    if i ∈ acc.1 then acc
    else if areBijectivelyEquivalent (norms.getD i {}) (norms.getD j {}) then
      (acc.1 ++ [j], mapInsert (heads.getD j []) (heads.getD i []) acc.2)
    else acc
  ((List.range idxs.length).flatMap (fun a =>
    (List.range idxs.length).filterMap (fun b =>
      if a < b then some (idxs.getD a 0, idxs.getD b 0) else none))).foldl step ([], [])

/-- Qualified-name replacement through the `canonicalName` map (the
`replaceRedundantRelations` node mapper looks each atom's name up once,
without chasing). -/
def renameQN (m : List (QualifiedName × QualifiedName)) (n : QualifiedName) :
    QualifiedName :=
  match m.lookup n with
  | some n' => n'
  | none => n

mutual

/-- `replaceRedundantRelations` applied to an argument: traverse and
replace the qualified name of every contained atom. -/
def renameArg (m : List (QualifiedName × QualifiedName)) : Arg → Arg
  | .var n => .var n
  | .unnamed => .unnamed
  | .numCst s => .numCst s
  | .strCst s => .strCst s
  | .nilCst => .nilCst
  | .functor n args => .functor n (renameArgList m args)
  | .recordInit args => .recordInit (renameArgList m args)
  | .agg op t body => .agg op (renameArgList m t) (renameLitList m body)
termination_by structural a => a

def renameArgList (m : List (QualifiedName × QualifiedName)) : ArgList → ArgList
  | .nil => .nil
  | .cons a rest => .cons (renameArg m a) (renameArgList m rest)
termination_by structural a => a

def renameAtom (m : List (QualifiedName × QualifiedName)) : Atom → Atom
  | .mk n c l => .mk (renameQN m n) (renameArgList m c) (renameArgList m l)
termination_by structural a => a

def renameLit (m : List (QualifiedName × QualifiedName)) : Lit → Lit
  | .atom a => .atom (renameAtom m a)
  | .neg a => .neg (renameAtom m a)
  | .bc op l r => .bc op (renameArg m l) (renameArg m r)
  | .other s => .other s
termination_by structural a => a

def renameLitList (m : List (QualifiedName × QualifiedName)) : LitList → LitList
  | .nil => .nil
  | .cons l rest => .cons (renameLit m l) (renameLitList m rest)
termination_by structural a => a

end

/-- `replaceRedundantRelations` applied to a clause. -/
def renameClause (m : List (QualifiedName × QualifiedName)) (c : Clause) : Clause :=
  { c with head := renameAtom m c.head, body := c.body.map (renameLit m) }

/-- Modelled from the spec: `removeRelation` (from `ast/utility/Utils`,
not part of the repository fragment) removes the named relation together
with its clauses. -/
def removeRelation (p : Program) (name : QualifiedName) : Program :=
  { p with
    relations := p.relations.filter (fun r => r ≠ name),
    clauses := p.clauses.filter (fun c => c.head.name ≠ name) }

/-- `MinimiseProgramTransformer::reduceSingletonRelations`: collect the
clauses of non-I/O relations defined by exactly one clause, find
pairwise-equivalent ones, remove the redundant relations and rewrite
every atom referring to them to the canonical name. -/
def reduceSingletonRelations (counter : Nat) (p : Program) :
    Program × Nat × Bool :=
  let norms := (normaliseProgramClauses p.clauses counter).1
  let singletonIdxs := p.relations.filterMap (fun rel =>
    if rel ∈ p.ioRelations then none
    else match clauseIndicesOf p rel with
         | [i] => some i
         | _ => none)
  let heads := p.clauses.map (fun c => c.head.name)
  let redundantIdxs := (singletonPairs norms heads singletonIdxs).1
  let canon := (singletonPairs norms heads singletonIdxs).2
  let afterRemoval := redundantIdxs.foldl (fun q i =>
    removeRelation q (heads.getD i [])) p
  let renamed := { afterRemoval with
    clauses := afterRemoval.clauses.map (renameClause canon) }
  (renamed, (normaliseProgramClauses p.clauses counter).2, !canon.isEmpty)

/-- `MinimiseProgramTransformer::transform`: the four reductions in
sequence. Analyses are invalidated between passes; the two
normalisation-consuming passes each run the analysis afresh, the static
unnamed-variable counter threading through. Returns the program, the
final counter and the changed flag. -/
def minimiseTransform (counter : Nat) (p : Program) : Program × Nat × Bool :=
  let p1 := reduceClauseBodies p
  let ch1 := !(p.clauses.filter (fun c => !(redundantPositions c.body).isEmpty)).isEmpty
  let p2 := removeRedundantClauses p1
  let ch2 := !(p1.clauses.filter isRedundantClause).isEmpty
  let r3 := reduceLocallyEquivalentClauses counter p2
  let r4 := reduceSingletonRelations r3.2.1 r3.1
  (r4.1, r4.2.1, ch1 || ch2 || r3.2.2 || r4.2.2)

/-! ## Directive handling (`ParserDriver.cpp`) -/

/-- `AstDirectiveType`. -/
inductive DirectiveType where
  | input
  | output
  | printsize
  | limitsize
  deriving DecidableEq

/-- `AstDirective`: a directive type, the qualified name of the relation
it refers to, and its source location. -/
structure Directive where
  dtype : DirectiveType
  qname : QualifiedName
  loc : SrcLocation
  deriving DecidableEq

/-- A redefinition `Diagnostic`: the primary message with the new
definition's location, plus the additional message carrying the previous
definition's location. -/
structure Diagnostic where
  message : String
  newLoc : SrcLocation
  prevLoc : SrcLocation
  deriving DecidableEq

/-- The parser-driver state touched by `ParserDriver::addDirective`: the
program's directive list and the error report. -/
structure DriverState where
  directives : List Directive
  errors : List Diagnostic
  deriving DecidableEq

/-- `ParserDriver::addDirective`: a `printsize` (resp. `limitsize`)
directive for a relation that already has one is reported as a
redefinition error carrying the new and the prior source locations and is
not added; every other directive is appended to the program. -/
def addDirective (st : DriverState) (d : Directive) : DriverState :=
  if d.dtype = .printsize then
    match st.directives.find? (fun cur =>
        cur.qname = d.qname ∧ cur.dtype = DirectiveType.printsize) with
    | some cur =>
        { st with errors := st.errors ++
            [⟨"Redefinition of printsize directives for relation " ++
                String.intercalate "." d.qname, d.loc, cur.loc⟩] }
    | none => { st with directives := st.directives ++ [d] }
  else if d.dtype = .limitsize then
    match st.directives.find? (fun cur =>
        cur.qname = d.qname ∧ cur.dtype = DirectiveType.limitsize) with
    | some cur =>
        { st with errors := st.errors ++
            [⟨"Redefinition of limitsize directives for relation " ++
                String.intercalate "." d.qname, d.loc, cur.loc⟩] }
    | none => { st with directives := st.directives ++ [d] }
  else { st with directives := st.directives ++ [d] }

/-- The program invariant of claim C9: at most one `printsize` and at
most one `limitsize` directive per relation. -/
def directiveInvariant (st : DriverState) : Prop :=
  ∀ t, (t = DirectiveType.printsize ∨ t = DirectiveType.limitsize) →
    ∀ n : QualifiedName,
      (st.directives.filter (fun d => d.qname = n ∧ d.dtype = t)).length ≤ 1

/-! ## Concrete instances used by the claims -/

/-- The atom `p(X,Y)` of scenario S7. -/
def pXY : Atom := .mk ["p"] (.ofList [.var "X", .var "Y"]) .nil

/-- The atom `q(X)` of scenario S7. -/
def qX : Atom := .mk ["q"] (.ofList [.var "X"]) .nil

/-- The atom `r(Y)` of scenario S7. -/
def rY : Atom := .mk ["r"] (.ofList [.var "Y"]) .nil

/-- A clause whose body is `p(X,Y), q(X), r(Y)` (scenario S7). -/
def sipsClause : Clause :=
  { head := .mk ["h"] (.ofList [.var "X", .var "Y"]) .nil,
    body := [.atom pXY, .atom qX, .atom rY] }

/-- The atom `a(X)`: one distinct variable, bound below. -/
def aX : Atom := .mk ["a"] (.ofList [.var "X"]) .nil

/-- The atom `b(Y,Z)`: two distinct variables, unbound below. -/
def bYZ : Atom := .mk ["b"] (.ofList [.var "Y", .var "Z"]) .nil

/-- A binding store in which exactly `X` is bound. -/
def bsX : BindingStore := ⟨["X"]⟩

/-- The body literal `r(X)`. -/
def rXLit : Lit := .atom (.mk ["r"] (.ofList [.var "X"]) .nil)

/-- The clause `q(X) :- r(X), r(X), r(X).` — three structurally equal
body literals. -/
def tripleClause : Clause :=
  { head := .mk ["q"] (.ofList [.var "X"]) .nil, body := [rXLit, rXLit, rXLit] }

/-- A program containing only `tripleClause`. -/
def tripleProgram : Program :=
  { relations := [["q"], ["r"]], ioRelations := [], clauses := [tripleClause] }

/-- A clause whose head contains an unnamed variable: `h(_).` -/
def unnamedClause : Clause := { head := .mk ["h"] (.ofList [.unnamed]) .nil, body := [] }

/-- `tripleClause` decorated with an execution plan and a source
location (for the frame-effect claim). -/
def plannedClause : Clause :=
  { head := .mk ["q"] (.ofList [.var "X"]) .nil, body := [rXLit, rXLit, rXLit],
    plan := some ⟨[[0]]⟩, loc := ⟨5, 7⟩ }

/-- The head atom `p(X)` of scenario S5. -/
def pX : Atom := .mk ["p"] (.ofList [.var "X"]) .nil

/-- The tautological clause `p(X) :- p(X), X != 1.` of scenario S5. -/
def tautClause : Clause :=
  { head := pX, body := [.atom pX, .bc "!=" (.var "X") (.numCst "1")] }

/-- A program containing only `tautClause`. -/
def tautProgram : Program :=
  { relations := [["p"]], ioRelations := [], clauses := [tautClause] }

/-- A clause containing a body-literal kind the normaliser does not
model. -/
def otherClause : Clause :=
  { head := .mk ["p"] (.ofList [.var "X"]) .nil,
    body := [.atom (.mk ["q"] (.ofList [.var "X"]) .nil), .other "weird"] }

/-- A program containing only `otherClause`. -/
def otherProgram : Program :=
  { relations := [["p"], ["q"]], ioRelations := [], clauses := [otherClause] }

/-- The clause `h(x) :- a(x).` -/
def symClauseL : Clause :=
  { head := .mk ["h"] (.ofList [.var "x"]) .nil,
    body := [.atom (.mk ["a"] (.ofList [.var "x"]) .nil)] }

/-- The clause `h(y) :- a(y).` -/
def symClauseR : Clause :=
  { head := .mk ["h"] (.ofList [.var "y"]) .nil,
    body := [.atom (.mk ["a"] (.ofList [.var "y"]) .nil)] }

/-- The normalisation of `symClauseL`. -/
def normL : NormalisedClause := (normaliseClause symClauseL 0).1

/-- The normalisation of `symClauseR`. -/
def normR : NormalisedClause := (normaliseClause symClauseR 0).1

/-! ## Theorems -/

/-- C1 (counterexample): with the `all-bound` SIPS and no pre-bound
variable, the body `p(X,Y), q(X), r(Y)` is **not** reordered to
`q(X), p(X,Y), r(Y)` as the claim states: no atom has all of its
concrete arguments bound at the first step, so the policy's "else first
non-null" fallback picks `p`. -/
theorem sipsAllBound_S7_not_q_first :
    reorderAtomsOnly (bodyAtoms sipsClause)
      (getOrderingAfterSIPS sipsAllBound ⟨[]⟩ sipsClause) ≠ [qX, pXY, rY] := by
  decide

/-- C1 (amended): with the `all-bound` SIPS and no pre-bound variable,
the `ReorderLiterals` transformer computes the identity ordering on the
body `p(X,Y), q(X), r(Y)` and leaves the clause untouched. -/
theorem sipsAllBound_S7_identity :
    getOrderingAfterSIPS sipsAllBound ⟨[]⟩ sipsClause = [0, 1, 2] ∧
      reorderClauseWithSips sipsAllBound ⟨[]⟩ sipsClause = none := by
  constructor
  · decide
  · decide

/-- C2 (code bug): the `least-free-vars` SIPS collects, for each atom,
the variables for which `isBound` holds — despite its own comment "use a
set to hold all free variables" — and therefore minimises the count of
distinct **bound** variables. With `X` bound it chooses `b(Y,Z)` (two
distinct unbound variables) over `a(X)` (zero distinct unbound
variables), the opposite of the claimed metric. -/
theorem leastFreeVars_counts_bound_vars :
    sipsLeastFreeVars [some aX, some bYZ] bsX = 1 ∧
      distinctUnboundVarCount bsX aX = 0 ∧
      distinctUnboundVarCount bsX bYZ = 2 := by
  refine ⟨?_, ?_, ?_⟩ <;> decide

/-- C3 (counterexample): the unnamed-variable counter is a
function-local `static`, not fresh per clause: normalising `h(_).`
twice in succession renames the unnamed variable to `@min:unnamed:0`
the first time and `@min:unnamed:1` the second, so the two
normalisations differ in their variable sets. -/
theorem normalise_twice_differs :
    (normaliseClause unnamedClause 0).1 ≠
      (normaliseClause unnamedClause (normaliseClause unnamedClause 0).2).1 := by
  decide

/-- C4 (code bug): `reduceClauseBodies` inserts the **preceding**
position `j` (not the duplicate position `i`) into
`redundantPositions`, so one application of the pass to
`q(X) :- r(X), r(X), r(X).` leaves a clause whose body still holds two
structurally equal literals, not one. -/
theorem reduceClauseBodies_keeps_duplicate :
    ((reduceClauseBodies tripleProgram).clauses.map Clause.body) =
      [[rXLit, rXLit]] := by
  decide

/-- C5 (code bug): the minimisation pipeline is not idempotent — on the
program `{ q(X) :- r(X), r(X), r(X). }` the first application produces
body `r(X), r(X)` and the second shortens it further to `r(X)`, because
`reduceClauseBodies` removes only the earlier member of each duplicate
pair found. -/
theorem minimise_not_idempotent :
    (minimiseTransform (minimiseTransform 0 tripleProgram).2.1
        (minimiseTransform 0 tripleProgram).1).1.clauses ≠
      (minimiseTransform 0 tripleProgram).1.clauses := by
  decide

/-- C10: the clause rebuilt by `reduceClauseBodies` for a clause with
duplicate body literals is freshly constructed
(`std::make_unique<AstClause>()`) from the cloned head and the retained
cloned body literals only: its execution plan is absent and its source
location is the default one, whatever the original carried. -/
theorem reduceClauseBody_fresh (c : Clause)
    (_h : redundantPositions c.body ≠ []) :
    (reduceClauseBody c).plan = none ∧
      (reduceClauseBody c).loc = default ∧
      (reduceClauseBody c).head = c.head := by
  exact ⟨rfl, rfl, rfl⟩

/-- Witness for C10: the concrete clause
`q(X) :- r(X), r(X), r(X).` with an execution plan and source location
`⟨5,7⟩` satisfies the hypothesis, and the rebuilt clause drops both. -/
theorem reduceClauseBody_fresh_witness :
    redundantPositions plannedClause.body ≠ [] ∧
      ((reduceClauseBody plannedClause).plan = none ∧
        (reduceClauseBody plannedClause).loc = default ∧
        (reduceClauseBody plannedClause).head = plannedClause.head) :=
  ⟨by decide, reduceClauseBody_fresh plannedClause (by decide)⟩


/-- Erasing the first occurrence of `c` from `a :: t` keeps `a` when
`a ≠ c`. -/
theorem removeClauseList_cons_of_ne (t : List Clause) (a c : Clause) (h : a ≠ c) :
    removeClauseList (a :: t) c = a :: removeClauseList t c := by
  simp [removeClauseList, h]

/-- Erasing clauses all different from `a` leaves a leading `a` in
place. -/
theorem foldl_removeClauseList_cons (cs : List Clause) (a : Clause) (t : List Clause)
    (h : ∀ c ∈ cs, a ≠ c) :
    cs.foldl removeClauseList (a :: t) = a :: cs.foldl removeClauseList t := by
  induction cs generalizing t with
  | nil => rfl
  | cons c cs ih =>
      simp only [List.foldl_cons]
      rw [removeClauseList_cons_of_ne _ _ _ (h c (by simp))]
      exact ih _ (fun x hx => h x (by simp [hx]))

/-- Erasing, one by one, the clauses satisfying `P` from a list leaves
exactly the clauses not satisfying `P`. -/
theorem filter_foldl_removeClauseList (P : Clause → Bool) :
    ∀ xs : List Clause,
      (xs.filter P).foldl removeClauseList xs = xs.filter (fun c => !P c)
  | [] => rfl
  | a :: t => by
      by_cases hPa : P a = true
      · simp only [List.filter_cons, hPa, if_pos, List.foldl_cons]
        have hstrip : removeClauseList (a :: t) a = t := by
          simp [removeClauseList]
        rw [hstrip, filter_foldl_removeClauseList P t]
        simp [hPa]
      · have hPa' : P a = false := by simpa using hPa
        simp only [List.filter_cons, hPa', if_neg, Bool.false_eq_true, not_false_iff]
        rw [foldl_removeClauseList_cons _ a t
          (fun c hc => by
            intro hac
            rw [List.mem_filter] at hc
            rw [hac] at hPa'
            rw [hc.2] at hPa'
            exact Bool.noConfusion hPa')]
        rw [filter_foldl_removeClauseList P t]
        simp [hPa']

/-- C8: `removeRedundantClauses` deletes exactly the clauses whose head
is structurally equal to one of their body literals and no others; in
particular the tautological clause `p(X) :- p(X), X != 1.` is redundant
and is removed from the program. -/
theorem removeRedundantClauses_exact :
    (∀ p : Program, (removeRedundantClauses p).clauses =
        p.clauses.filter (fun c => !isRedundantClause c)) ∧
      isRedundantClause tautClause = true ∧
      (removeRedundantClauses tautProgram).clauses = [] := by
  refine ⟨fun p => filter_foldl_removeClauseList isRedundantClause p.clauses, by decide, by decide⟩

/-- Appending a directive that has no prior same-name same-type
`printsize`/`limitsize` entry preserves the at-most-one invariant. -/
theorem directiveInvariant_append (st : DriverState) (d : Directive) (e : List Diagnostic)
    (hinv : directiveInvariant st)
    (hnew : ∀ t, (t = DirectiveType.printsize ∨ t = DirectiveType.limitsize) →
      d.dtype = t →
      st.directives.find? (fun c => c.qname = d.qname ∧ c.dtype = t) = none) :
    directiveInvariant ⟨st.directives ++ [d], e⟩ := by
  intro t ht n
  simp only [List.filter_append]
  by_cases hd : (d.qname = n ∧ d.dtype = t)
  · have hnone := hnew t ht hd.2
    have hempty : st.directives.filter (fun c => c.qname = d.qname ∧ c.dtype = t) = [] := by
      rw [List.filter_eq_nil_iff]
      intro c hc
      have := List.find?_eq_none.mp hnone c hc
      simpa using this
    rw [hd.1] at hempty
    rw [hempty]
    simp [hd.1, hd.2]
  · have : (List.filter (fun c => decide (c.qname = n ∧ c.dtype = t)) [d]).length = 0 := by
      simp only [List.filter, List.length_nil]
      by_cases h1 : (d.qname = n ∧ d.dtype = t)
      · exact absurd h1 hd
      · simp [h1]
    rw [List.length_append, this]
    simpa using hinv t ht n

/-- C9: `addDirective` preserves the at-most-one-`printsize`/`limitsize`
invariant; a duplicate `printsize` (resp. `limitsize`) directive for a
relation that already has one only records a redefinition error carrying
the new and the prior source locations, leaving the directive list
unchanged; in every other case the directive is appended unconditionally
and no error is recorded. -/
theorem addDirective_spec (st : DriverState) (d : Directive)
    (hinv : directiveInvariant st) :
    directiveInvariant (addDirective st d) ∧
    (∀ cur, d.dtype = DirectiveType.printsize →
      st.directives.find?
          (fun c => c.qname = d.qname ∧ c.dtype = DirectiveType.printsize) = some cur →
      addDirective st d = { st with errors := st.errors ++
        [⟨"Redefinition of printsize directives for relation " ++
            String.intercalate "." d.qname, d.loc, cur.loc⟩] }) ∧
    (∀ cur, d.dtype = DirectiveType.limitsize →
      st.directives.find?
          (fun c => c.qname = d.qname ∧ c.dtype = DirectiveType.limitsize) = some cur →
      addDirective st d = { st with errors := st.errors ++
        [⟨"Redefinition of limitsize directives for relation " ++
            String.intercalate "." d.qname, d.loc, cur.loc⟩] }) ∧
    (d.dtype = DirectiveType.printsize →
      st.directives.find?
          (fun c => c.qname = d.qname ∧ c.dtype = DirectiveType.printsize) = none →
      addDirective st d = { st with directives := st.directives ++ [d] }) ∧
    (d.dtype = DirectiveType.limitsize →
      st.directives.find?
          (fun c => c.qname = d.qname ∧ c.dtype = DirectiveType.limitsize) = none →
      addDirective st d = { st with directives := st.directives ++ [d] }) ∧
    (d.dtype ≠ DirectiveType.printsize → d.dtype ≠ DirectiveType.limitsize →
      addDirective st d = { st with directives := st.directives ++ [d] }) := by
  refine ⟨?_, ?_, ?_, ?_, ?_, ?_⟩
  case _ =>
    -- invariant preservation, by cases on what addDirective did
    unfold addDirective
    by_cases hp : d.dtype = DirectiveType.printsize
    · simp only [hp, if_pos]
      cases hfind : st.directives.find?
          (fun c => c.qname = d.qname ∧ c.dtype = DirectiveType.printsize) with
      | some cur => exact hinv
      | none =>
          refine directiveInvariant_append st d st.errors hinv ?_
          intro t ht hdt
          rw [hdt.symm.trans hp]
          exact hfind
    · simp only [hp, if_neg, if_false]
      by_cases hl : d.dtype = DirectiveType.limitsize
      · simp only [hl, if_pos]
        cases hfind : st.directives.find?
            (fun c => c.qname = d.qname ∧ c.dtype = DirectiveType.limitsize) with
        | some cur => exact hinv
        | none =>
            refine directiveInvariant_append st d st.errors hinv ?_
            intro t ht hdt
            rw [hdt.symm.trans hl]
            exact hfind
      · simp only [hl, if_neg, if_false]
        refine directiveInvariant_append st d st.errors hinv ?_
        intro t ht hdt
        cases ht with
        | inl h => rw [h] at hdt ; exact absurd hdt hp
        | inr h => rw [h] at hdt ; exact absurd hdt hl
  case _ =>
    intro cur hp hfind
    unfold addDirective
    rw [hp]
    simp only [reduceIte]
    rw [hfind]
  case _ =>
    intro cur hl hfind
    unfold addDirective
    rw [hl]
    simp only [reduceIte, reduceCtorEq]
    rw [hfind]
  case _ =>
    intro hp hfind
    unfold addDirective
    rw [hp]
    simp only [reduceIte]
    rw [hfind]
  case _ =>
    intro hl hfind
    unfold addDirective
    rw [hl]
    simp only [reduceIte, reduceCtorEq]
    rw [hfind]
  case _ =>
    intro hp hl
    unfold addDirective
    rw [if_neg hp, if_neg hl]

/-- A `printsize` directive for relation `r` at location `⟨1,1⟩`. -/
def dirR1 : Directive := ⟨DirectiveType.printsize, ["r"], ⟨1, 1⟩⟩

/-- A second `printsize` directive for relation `r`, at location
`⟨2,2⟩`. -/
def dirR2 : Directive := ⟨DirectiveType.printsize, ["r"], ⟨2, 2⟩⟩

/-- A driver state already holding `dirR1`. -/
def dstate : DriverState := ⟨[dirR1], []⟩

/-- Witness for C9: the state holding one `printsize` directive for `r`
satisfies the invariant, and adding a second one only records the
redefinition error with both locations. -/
theorem addDirective_spec_witness :
    directiveInvariant dstate ∧
      addDirective dstate dirR2 = { dstate with errors := dstate.errors ++
        [⟨"Redefinition of printsize directives for relation " ++
            String.intercalate "." dirR2.qname, dirR2.loc, dirR1.loc⟩] } := by
  have hinv : directiveInvariant dstate := by
    intro t ht n
    exact le_trans (List.length_filter_le _ _) (by simp [dstate])
  exact ⟨hinv, (addDirective_spec dstate dirR2 hinv).2.1 dirR1 rfl rfl⟩

/-- A left operand that is not fully normalised makes
`areBijectivelyEquivalent` false. -/
theorem areBijectivelyEquivalent_false_left (L R : NormalisedClause)
    (h : L.fullyNormalised = false) : areBijectivelyEquivalent L R = false := by
  unfold areBijectivelyEquivalent
  rw [h]
  simp

/-- A right operand that is not fully normalised makes
`areBijectivelyEquivalent` false. -/
theorem areBijectivelyEquivalent_false_right (L R : NormalisedClause)
    (h : R.fullyNormalised = false) : areBijectivelyEquivalent L R = false := by
  unfold areBijectivelyEquivalent
  rw [h]
  simp

/-- Every clause index deleted by the equivalence-class loop is
bijectively equivalent to some representative. -/
theorem eqClassDeletions_subset (norms : List NormalisedClause) :
    ∀ (idxs reps : List Nat) (i : Nat), i ∈ eqClassDeletions norms idxs reps →
      ∃ r, areBijectivelyEquivalent (norms.getD r {}) (norms.getD i {}) = true
  | [], _, i, h => absurd h (by simp [eqClassDeletions])
  | j :: rest, reps, i, h => by
      unfold eqClassDeletions at h
      by_cases hany : reps.any (fun r =>
          areBijectivelyEquivalent (norms.getD r {}) (norms.getD j {})) = true
      · rw [if_pos hany] at h
        cases List.mem_cons.mp h with
        | inl hij =>
            subst hij
            obtain ⟨r, _, hr⟩ := List.any_eq_true.mp hany
            exact ⟨r, hr⟩
        | inr htl => exact eqClassDeletions_subset norms rest reps i htl
      · rw [if_neg hany] at h
        exact eqClassDeletions_subset norms rest (reps ++ [j]) i h

/-- C7: a normalised clause with `fullyNormalised = false` makes
`areBijectivelyEquivalent` return false as either operand, and
consequently a clause of the program whose normalisation is not fully
normalised is never put into an existing equivalence class: it is
preserved by `reduceLocallyEquivalentClauses`. -/
theorem notFullyNormalised_never_merged :
    (∀ L R : NormalisedClause, L.fullyNormalised = false →
      areBijectivelyEquivalent L R = false ∧ areBijectivelyEquivalent R L = false) ∧
    (∀ (counter : Nat) (p : Program) (i : Nat) (c : Clause),
      p.clauses.get? i = some c →
      ((normaliseProgramClauses p.clauses counter).1.getD i {}).fullyNormalised = false →
      c ∈ (reduceLocallyEquivalentClauses counter p).1.clauses) := by
  constructor
  · intro L R h
    exact ⟨areBijectivelyEquivalent_false_left L R h,
      areBijectivelyEquivalent_false_right R L h⟩
  · intro counter p i c hget hnorm
    simp only [reduceLocallyEquivalentClauses]
    refine List.mem_filterMap.mpr ⟨i, ?_, ?_⟩
    · refine List.mem_range.mpr ?_
      rcases List.get?_eq_some.mp hget with ⟨hlt, _⟩
      exact hlt
    · have hni : i ∉ p.relations.flatMap (fun rel =>
          eqClassDeletions (normaliseProgramClauses p.clauses counter).1
            (clauseIndicesOf p rel) []) := by
        intro hmem
        rcases List.mem_flatMap.mp hmem with ⟨rel, _, hdel⟩
        rcases eqClassDeletions_subset _ _ _ _ hdel with ⟨r, hr⟩
        rw [areBijectivelyEquivalent_false_right _ _ hnorm] at hr
        exact Bool.noConfusion hr
      rw [if_neg hni, hget]

/-- Witness for C7: the normalisation of `otherClause` (whose body holds
a literal kind the normaliser does not model) is not fully normalised;
it is equivalent to no clause and survives the local-equivalence pass of
`otherProgram`. -/
theorem notFullyNormalised_never_merged_witness :
    ((normaliseProgramClauses otherProgram.clauses 0).1.getD 0 {}).fullyNormalised
        = false ∧
      (areBijectivelyEquivalent
          ((normaliseProgramClauses otherProgram.clauses 0).1.getD 0 {}) {} = false ∧
        areBijectivelyEquivalent {}
          ((normaliseProgramClauses otherProgram.clauses 0).1.getD 0 {}) = false) ∧
      otherClause ∈ (reduceLocallyEquivalentClauses 0 otherProgram).1.clauses := by
  refine ⟨by decide, ?_, ?_⟩
  · exact notFullyNormalised_never_merged.1 _ {} (by decide)
  · exact notFullyNormalised_never_merged.2 0 otherProgram 0 otherClause rfl (by decide)

mutual

/-- Normalisation of an unnamed-free argument reads only the
`NormalisedClause` component of the state: two states with equal
`nc`-components (and possibly different static counters) yield the same
identifier and equal `nc`-components. -/
theorem normaliseArgument_nc : ∀ (a : Arg) (st st' : NormState),
    Arg.noUnnamed a = true → st.nc = st'.nc →
    (normaliseArgument st a).1 = (normaliseArgument st' a).1 ∧
      (normaliseArgument st a).2.nc = (normaliseArgument st' a).2.nc
  | .var v, st, st', _, hnc => by
      refine ⟨rfl, ?_⟩
      simp only [normaliseArgument, NormState.insertVariable]
      rw [hnc]
  | .unnamed, _, _, h, _ => by simp [Arg.noUnnamed] at h
  | .numCst v, st, st', _, hnc => by
      refine ⟨rfl, ?_⟩
      simp only [normaliseArgument, NormState.insertConstant]
      rw [hnc]
  | .strCst v, st, st', _, hnc => by
      refine ⟨rfl, ?_⟩
      simp only [normaliseArgument, NormState.insertConstant]
      rw [hnc]
  | .nilCst, st, st', _, hnc => by
      refine ⟨rfl, ?_⟩
      simp only [normaliseArgument, NormState.insertConstant]
      rw [hnc]
  | .functor _ _, st, st', _, hnc => by
      refine ⟨rfl, ?_⟩
      simp only [normaliseArgument, NormState.setNotFullyNormalised]
      rw [hnc]
  | .recordInit _, st, st', _, hnc => by
      refine ⟨rfl, ?_⟩
      simp only [normaliseArgument, NormState.setNotFullyNormalised]
      rw [hnc]
  | .agg op target body, st, st', h, hnc => by
      have hT : Arg.noUnnamedList target = true := by
        simp only [Arg.noUnnamed, Bool.and_eq_true] at h ; exact h.1
      have hB : Lit.noUnnamedList body = true := by
        simp only [Arg.noUnnamed, Bool.and_eq_true] at h ; exact h.2
      simp only [normaliseArgument]
      rw [← hnc]
      have h2 : (({ st with nc := { st.nc with aggrScopeCount := st.nc.aggrScopeCount + 1 } } :
            NormState).insertVariable
              ("@min:scope:" ++ toString (st.nc.aggrScopeCount + 1))).nc =
          (({ st' with nc := { st.nc with aggrScopeCount := st.nc.aggrScopeCount + 1 } } :
            NormState).insertVariable
              ("@min:scope:" ++ toString (st.nc.aggrScopeCount + 1))).nc := rfl
      obtain ⟨hts1, hts2⟩ := normaliseArgList_nc target _ _ hT h2
      refine ⟨rfl, ?_⟩
      have h3 : ∀ s1 s2 : NormState, s1.nc = s2.nc → ∀ e,
          (s1.pushElement e).nc = (s2.pushElement e).nc := by
        intro s1 s2 hs e
        simp only [NormState.pushElement]
        rw [hs]
      rw [hts1]
      exact addClauseBodyLitList_nc body _ _ _ hB (h3 _ _ hts2 _)

theorem normaliseArgList_nc : ∀ (xs : ArgList) (st st' : NormState),
    Arg.noUnnamedList xs = true → st.nc = st'.nc →
    (normaliseArgList st xs).1 = (normaliseArgList st' xs).1 ∧
      (normaliseArgList st xs).2.nc = (normaliseArgList st' xs).2.nc
  | .nil, st, st', _, hnc => ⟨rfl, hnc⟩
  | .cons a rest, st, st', h, hnc => by
      have h1 : Arg.noUnnamed a = true := by
        simp only [Arg.noUnnamedList, Bool.and_eq_true] at h ; exact h.1
      have h2 : Arg.noUnnamedList rest = true := by
        simp only [Arg.noUnnamedList, Bool.and_eq_true] at h ; exact h.2
      obtain ⟨p1, p2⟩ := normaliseArgument_nc a st st' h1 hnc
      obtain ⟨q1, q2⟩ := normaliseArgList_nc rest _ _ h2 p2
      exact ⟨by simp only [normaliseArgList] ; rw [p1, q1], by
        simp only [normaliseArgList] ; exact q2⟩

theorem addClauseAtom_nc : ∀ (a : Atom) (q sc : String) (st st' : NormState),
    Atom.noUnnamed a = true → st.nc = st'.nc →
    (addClauseAtom q sc st a).nc = (addClauseAtom q sc st' a).nc
  | .mk n c l, q, sc, st, st', h, hnc => by
      have hc : Arg.noUnnamedList c = true := by
        simp only [Atom.noUnnamed, Bool.and_eq_true] at h ; exact h.1
      have hl : Arg.noUnnamedList l = true := by
        simp only [Atom.noUnnamed, Bool.and_eq_true] at h ; exact h.2
      obtain ⟨p1, p2⟩ := normaliseArgList_nc c st st' hc hnc
      obtain ⟨q1, q2⟩ := normaliseArgList_nc l _ _ hl p2
      simp only [addClauseAtom, NormState.pushElement]
      rw [p1, q1, q2]

theorem addClauseBodyLiteral_nc : ∀ (lit : Lit) (sc : String) (st st' : NormState),
    Lit.noUnnamed lit = true → st.nc = st'.nc →
    (addClauseBodyLiteral sc st lit).nc = (addClauseBodyLiteral sc st' lit).nc
  | .atom a, sc, st, st', h, hnc => by
      simp only [addClauseBodyLiteral]
      exact addClauseAtom_nc a _ _ st st' (by simpa [Lit.noUnnamed] using h) hnc
  | .neg a, sc, st, st', h, hnc => by
      simp only [addClauseBodyLiteral]
      exact addClauseAtom_nc a _ _ st st' (by simpa [Lit.noUnnamed] using h) hnc
  | .bc op lhs rhs, sc, st, st', h, hnc => by
      have h1 : Arg.noUnnamed lhs = true := by
        simp only [Lit.noUnnamed, Bool.and_eq_true] at h ; exact h.1
      have h2 : Arg.noUnnamed rhs = true := by
        simp only [Lit.noUnnamed, Bool.and_eq_true] at h ; exact h.2
      obtain ⟨p1, p2⟩ := normaliseArgument_nc lhs st st' h1 hnc
      obtain ⟨q1, q2⟩ := normaliseArgument_nc rhs _ _ h2 p2
      simp only [addClauseBodyLiteral, NormState.pushElement]
      rw [p1, q1, q2]
  | .other printed, sc, st, st', _, hnc => by
      simp only [addClauseBodyLiteral, NormState.pushElement,
        NormState.setNotFullyNormalised]
      rw [hnc]

theorem addClauseBodyLitList_nc : ∀ (ls : LitList) (sc : String) (st st' : NormState),
    Lit.noUnnamedList ls = true → st.nc = st'.nc →
    (addClauseBodyLitList sc st ls).nc = (addClauseBodyLitList sc st' ls).nc
  | .nil, _, _, _, _, hnc => hnc
  | .cons l rest, sc, st, st', h, hnc => by
      have h1 : Lit.noUnnamed l = true := by
        simp only [Lit.noUnnamedList, Bool.and_eq_true] at h ; exact h.1
      have h2 : Lit.noUnnamedList rest = true := by
        simp only [Lit.noUnnamedList, Bool.and_eq_true] at h ; exact h.2
      simp only [addClauseBodyLitList]
      exact addClauseBodyLitList_nc rest _ _ _ h2
        (addClauseBodyLiteral_nc l _ _ _ h1 hnc)

end

/-- The clause-level body loop also reads only the `nc` component when
no literal holds an unnamed variable. -/
theorem addClauseBodyLiterals_nc : ∀ (ls : List Lit) (sc : String) (st st' : NormState),
    ls.all Lit.noUnnamed = true → st.nc = st'.nc →
    (addClauseBodyLiterals sc st ls).nc = (addClauseBodyLiterals sc st' ls).nc
  | [], _, _, _, _, hnc => hnc
  | l :: rest, sc, st, st', h, hnc => by
      have h1 : Lit.noUnnamed l = true := by
        simp only [List.all_cons, Bool.and_eq_true] at h ; exact h.1
      have h2 : rest.all Lit.noUnnamed = true := by
        simp only [List.all_cons, Bool.and_eq_true] at h ; exact h.2
      simp only [addClauseBodyLiterals]
      exact addClauseBodyLiterals_nc rest _ _ _ h2
        (addClauseBodyLiteral_nc l _ _ _ h1 hnc)

/-- C3 (amended): clause normalisation is deterministic for every clause
containing no unnamed variables — the resulting `NormalisedClause`
(element sequence, variable set, constant set, flags) does not depend on
the value of the static unnamed-variable counter, so normalising such a
clause twice yields identical results. -/
theorem normalise_deterministic_no_unnamed (c : Clause) (k k' : Nat)
    (h : Clause.noUnnamed c = true) :
    (normaliseClause c k).1 = (normaliseClause c k').1 := by
  obtain ⟨⟨hn, hc, hl⟩, body, plan, loc⟩ := c
  have hhead : Atom.noUnnamed (.mk hn hc hl) = true := by
    simp only [Clause.noUnnamed, Bool.and_eq_true] at h ; exact h.1
  have hbody : body.all Lit.noUnnamed = true := by
    simp only [Clause.noUnnamed, Bool.and_eq_true] at h ; exact h.2
  have hc' : Arg.noUnnamedList hc = true := by
    simp only [Atom.noUnnamed, Bool.and_eq_true] at hhead ; exact hhead.1
  have hl' : Arg.noUnnamedList hl = true := by
    simp only [Atom.noUnnamed, Bool.and_eq_true] at hhead ; exact hhead.2
  simp only [normaliseClause]
  obtain ⟨p1, p2⟩ := normaliseArgList_nc hc ⟨{}, k⟩ ⟨{}, k'⟩ hc' rfl
  obtain ⟨q1, q2⟩ := normaliseArgList_nc hl _ _ hl' p2
  have hpush : ∀ s1 s2 : NormState, s1.nc = s2.nc → ∀ e,
      (s1.pushElement e).nc = (s2.pushElement e).nc := by
    intro s1 s2 hs e
    simp only [NormState.pushElement]
    rw [hs]
  rw [p1, q1]
  exact addClauseBodyLiterals_nc body _ _ _ hbody (hpush _ _ q2 _)

/-- Witness for C3 (amended): the clause `h(X,Y) :- p(X,Y), q(X), r(Y).`
has no unnamed variable, and its normalisation is the same under counter
values 0 and 5. -/
theorem normalise_deterministic_no_unnamed_witness :
    Clause.noUnnamed sipsClause = true ∧
      (normaliseClause sipsClause 0).1 = (normaliseClause sipsClause 5).1 :=
  ⟨by decide, normalise_deterministic_no_unnamed sipsClause 0 5 (by decide)⟩

/-- Unpacking of `wfNC` into its propositional components. -/
theorem wfNC_props (N : NormalisedClause) (h : wfNC N = true) :
    (∀ v ∈ N.vars, v ≠ "") ∧ (∀ c ∈ N.constants, c ≠ "") ∧
      (∀ s ∈ occParams N, s ≠ "") ∧ N.vars.Nodup ∧ N.constants.Nodup ∧
      (∀ v ∈ N.vars, v ∉ N.constants) ∧
      (∀ s ∈ occParams N, s ∈ N.vars ∨ s ∈ N.constants ∨ s = baseScope) ∧
      baseScope ∉ N.vars ∧ baseScope ∉ N.constants ∧
      (∀ v ∈ N.vars, v ∈ occParams N) ∧ (∀ c ∈ N.constants, c ∈ occParams N) ∧
      ((baseScope ∈ occParams N) ↔ (1 < N.clauseElements.length)) := by
  simp only [wfNC, Bool.and_eq_true, List.all_eq_true, decide_eq_true_eq] at h
  obtain ⟨⟨⟨⟨⟨⟨⟨⟨⟨⟨⟨h1, h2⟩, h3⟩, h4⟩, h5⟩, h6⟩, h7⟩, h8⟩, h9⟩, h10⟩, h11⟩, h12⟩ := h
  exact ⟨h1, h2, h3, h4, h5, h6, h7, h8, h9, h10, h11, by rw [h12]⟩

/-- Characterisation of the argument scan of `isValidPermutation`: when
no right-hand identifier is the empty string, the scan succeeds exactly
when some total map extending the preassigned entries of `m` sends every
left identifier to its aligned right identifier. -/
theorem scanPairs_iff : ∀ (ps : List (String × String)) (m : String → String),
    (∀ p ∈ ps, p.2 ≠ "") →
    (scanPairs m ps = true ↔
      ∃ f : String → String, (∀ s, m s ≠ "" → f s = m s) ∧ ∀ p ∈ ps, f p.1 = p.2)
  | [], m, _ => by
      simp only [scanPairs, List.not_mem_nil, false_implies, implies_true, and_true,
        true_iff]
      exact ⟨m, fun _ _ => rfl⟩
  | (s, t) :: rest, m, hne => by
      have ht : t ≠ "" := hne (s, t) (by simp)
      have hrest : ∀ p ∈ rest, p.2 ≠ "" := fun p hp => hne p (by simp [hp])
      by_cases hm : m s = ""
      · rw [show scanPairs m ((s, t) :: rest) =
            scanPairs (Function.update m s t) rest from by
          simp only [scanPairs] ; rw [if_pos hm]]
        rw [scanPairs_iff rest (Function.update m s t) hrest]
        constructor
        · rintro ⟨f, hf1, hf2⟩
          refine ⟨f, ?_, ?_⟩
          · intro s2 hs2
            by_cases hss : s2 = s
            · rw [hss] at hs2
              exact absurd hm hs2
            · have hupd := hf1 s2 (by rw [Function.update_noteq hss] ; exact hs2)
              rw [Function.update_noteq hss] at hupd
              exact hupd
          · intro p hp
            rcases List.mem_cons.mp hp with h | h
            · subst h
              have hupd := hf1 s (by rw [Function.update_same] ; exact ht)
              rw [Function.update_same] at hupd
              exact hupd
            · exact hf2 p h
        · rintro ⟨f, hf1, hf2⟩
          refine ⟨f, ?_, fun p hp => hf2 p (by simp [hp])⟩
          intro s2 hs2
          by_cases hss : s2 = s
          · rw [hss, Function.update_same]
            exact hf2 (s, t) (by simp)
          · rw [Function.update_noteq hss] at hs2 ⊢
            exact hf1 s2 hs2
      · by_cases hmt : m s = t
        · rw [show scanPairs m ((s, t) :: rest) = scanPairs m rest from by
            simp only [scanPairs] ; rw [if_neg hm, if_pos hmt]]
          rw [scanPairs_iff rest m hrest]
          constructor
          · rintro ⟨f, hf1, hf2⟩
            refine ⟨f, hf1, fun p hp => ?_⟩
            rcases List.mem_cons.mp hp with h | h
            · subst h
              rw [hf1 s hm, hmt]
            · exact hf2 p h
          · rintro ⟨f, hf1, hf2⟩
            exact ⟨f, hf1, fun p hp => hf2 p (by simp [hp])⟩
        · rw [show scanPairs m ((s, t) :: rest) = false from by
            simp only [scanPairs] ; rw [if_neg hm, if_neg hmt]]
          simp only [Bool.false_eq_true, false_iff]
          rintro ⟨f, hf1, hf2⟩
          have h1 := hf1 s hm
          have h2 := hf2 (s, t) (by simp)
          exact hmt (h1.symm.trans h2)

/-- Characterisation of `isValidPermutation` over a well-formed left
operand, given that no aligned right identifier is empty: it succeeds
exactly when some map fixing the left constants matches every aligned
pair. -/
theorem isValidPermutation_iff (L R : NormalisedClause) (perm : List Nat)
    (hwf : wfNC L = true)
    (hne : ∀ p ∈ alignedPairs L R perm, p.2 ≠ "") :
    isValidPermutation L R perm = true ↔
      ∃ f : String → String, (∀ c ∈ L.constants, f c = c) ∧
        ∀ p ∈ alignedPairs L R perm, f p.1 = p.2 := by
  obtain ⟨hv, hc, _, _, _, hdisj, _, _, _, _, _, _⟩ := wfNC_props L hwf
  unfold isValidPermutation
  rw [scanPairs_iff _ _ hne]
  constructor
  · rintro ⟨f, hf1, hf2⟩
    refine ⟨f, fun c hcm => ?_, hf2⟩
    have hmc : initVarMap L c = c := by
      simp only [initVarMap]
      rw [if_neg (fun hcv => hdisj c hcv hcm), if_pos hcm]
    have := hf1 c (by rw [hmc] ; exact hc c hcm)
    rw [hmc] at this
    exact this
  · rintro ⟨f, hf1, hf2⟩
    refine ⟨f, fun s hs => ?_, hf2⟩
    simp only [initVarMap] at hs ⊢
    by_cases hsv : s ∈ L.vars
    · rw [if_pos hsv] at hs
      exact absurd rfl hs
    · rw [if_neg hsv] at hs ⊢
      by_cases hsc : s ∈ L.constants
      · rw [if_pos hsc]
        exact hf1 s hsc
      · rw [if_neg hsc] at hs
        exact absurd rfl hs

/-- Indexed characterisation of membership in a zip of string lists. -/
theorem mem_zip_iff_getD (l1 l2 : List String) (q : String × String) :
    q ∈ l1.zip l2 ↔
      ∃ i, i < l1.length ∧ i < l2.length ∧ q = (l1.getD i "", l2.getD i "") := by
  constructor
  · intro hq
    rcases List.mem_iff_getElem.mp hq with ⟨i, hi, hqi⟩
    have hlen : i < min l1.length l2.length := by simpa [List.length_zip] using hi
    refine ⟨i, (lt_min_iff.mp hlen).1, (lt_min_iff.mp hlen).2, ?_⟩
    rw [← hqi, List.getElem_zip]
    rw [List.getD_eq_getElem l1 "" (lt_min_iff.mp hlen).1,
      List.getD_eq_getElem l2 "" (lt_min_iff.mp hlen).2]
  · rintro ⟨i, h1, h2, rfl⟩
    have hmin : i < (l1.zip l2).length := by
      rw [List.length_zip] ; exact lt_min_iff.mpr ⟨h1, h2⟩
    refine List.mem_iff_getElem.mpr ⟨i, hmin, ?_⟩
    rw [List.getElem_zip, List.getD_eq_getElem l1 "" h1, List.getD_eq_getElem l2 "" h2]

/-- The depth-first search `permSearch` succeeds exactly when some
duplicate-free column choice, drawn row-wise from the candidate rows and
avoiding the already-chosen columns, extends the chosen prefix to a
permutation that passes `isValidPermutation`. -/
theorem permSearch_iff (L R : NormalisedClause) :
    ∀ (rows : List (List Nat)) (chosen : List Nat),
    permSearch L R rows chosen = true ↔
      ∃ suffix : List Nat, suffix.length = rows.length ∧
        (∀ i, i < suffix.length → suffix.getD i 0 ∈ rows.getD i []) ∧
        suffix.Nodup ∧ (∀ j ∈ suffix, j ∉ chosen) ∧
        isValidPermutation L R (chosen.reverse ++ suffix) = true
  | [], chosen => by
      simp only [permSearch]
      constructor
      · intro h
        exact ⟨[], rfl, by simp, by simp, by simp, by simpa using h⟩
      · rintro ⟨suffix, hlen, _, _, _, hvalid⟩
        have hnil : suffix = [] := List.eq_nil_of_length_eq_zero hlen
        subst hnil
        simpa using hvalid
  | row :: rest, chosen => by
      simp only [permSearch, List.any_eq_true]
      constructor
      · rintro ⟨j, hj, hcond⟩
        by_cases hjc : j ∈ chosen
        · rw [if_pos hjc] at hcond
          exact absurd hcond (by simp)
        · rw [if_neg hjc] at hcond
          rcases (permSearch_iff L R rest (j :: chosen)).mp hcond with
            ⟨suffix, hlen, hsel, hnodup, hdisj, hvalid⟩
          refine ⟨j :: suffix, by simp [hlen], ?_, ?_, ?_, ?_⟩
          · intro i hi
            cases i with
            | zero => simpa using hj
            | succ i2 => simpa using hsel i2 (by simpa using hi)
          · exact List.nodup_cons.mpr
              ⟨fun hjs => (hdisj j hjs) (by simp), hnodup⟩
          · intro x hx
            rcases List.mem_cons.mp hx with h | h
            · rw [h] ; exact hjc
            · intro hxc
              exact (hdisj x h) (by simp [hxc])
          · have hrw : (j :: chosen).reverse ++ suffix = chosen.reverse ++ j :: suffix := by
              simp
            rw [← hrw]
            exact hvalid
      · rintro ⟨suffix, hlen, hsel, hnodup, hdisj, hvalid⟩
        cases suffix with
        | nil => simp at hlen
        | cons j suffix2 =>
          refine ⟨j, ?_, ?_⟩
          · have := hsel 0 (by simp)
            simpa using this
          · have hjc : j ∉ chosen := hdisj j (by simp)
            rw [if_neg hjc]
            refine (permSearch_iff L R rest (j :: chosen)).mpr
              ⟨suffix2, by simpa using hlen, ?_,
                (List.nodup_cons.mp hnodup).2, ?_, ?_⟩
            · intro i hi
              have := hsel (i + 1) (by simpa using hi)
              simpa using this
            · intro x hx hxc
              rcases List.mem_cons.mp hxc with h | h
              · rw [h] at hx
                exact (List.nodup_cons.mp hnodup).1 hx
              · exact (hdisj x (by simp [hx])) h
            · have hrw : (j :: chosen).reverse ++ suffix2 = chosen.reverse ++ j :: suffix2 := by
                simp
              rw [hrw]
              exact hvalid

/-- The candidate rows have one row per left element. -/
theorem validMoves_length (L R : NormalisedClause) :
    (validMoves L R).length = L.clauseElements.length := by
  simp [validMoves]

/-- The `i`-th candidate row lists the right columns with a matching
element name. -/
theorem validMoves_getD (L R : NormalisedClause) (i : Nat)
    (hi : i < L.clauseElements.length) :
    (validMoves L R).getD i [] =
      (List.range L.clauseElements.length).filter (fun j =>
        (L.clauseElements.getD i defaultElem).name =
          (R.clauseElements.getD j defaultElem).name) := by
  have hlt : i < (validMoves L R).length := by rw [validMoves_length] ; exact hi
  rw [List.getD_eq_getElem _ _ hlt]
  simp [validMoves]

/-- `existsValidPermutation` succeeds exactly when a duplicate-free,
name-respecting permutation passes `isValidPermutation`. -/
theorem existsValidPermutation_iff (L R : NormalisedClause) :
    existsValidPermutation L R = true ↔
      ∃ perm : List Nat, perm.length = L.clauseElements.length ∧
        (∀ i, i < perm.length → perm.getD i 0 ∈ (validMoves L R).getD i []) ∧
        perm.Nodup ∧ isValidPermutation L R perm = true := by
  unfold existsValidPermutation
  rw [permSearch_iff L R (validMoves L R) []]
  constructor
  · rintro ⟨suffix, hlen, hsel, hnodup, _, hvalid⟩
    exact ⟨suffix, by rw [hlen, validMoves_length], hsel, hnodup, by simpa using hvalid⟩
  · rintro ⟨perm, hlen, hsel, hnodup, hvalid⟩
    exact ⟨perm, by rw [hlen, validMoves_length], hsel, hnodup, by simp, by simpa using hvalid⟩

/-- Indexed characterisation of membership in the element/column zip. -/
theorem mem_zip_elems_iff (elems : List NormElem) (perm : List Nat)
    (q : NormElem × Nat) :
    q ∈ elems.zip perm ↔
      ∃ i, i < elems.length ∧ i < perm.length ∧
        q = (elems.getD i defaultElem, perm.getD i 0) := by
  constructor
  · intro hq
    rcases List.mem_iff_getElem.mp hq with ⟨i, hi, hqi⟩
    have hlen : i < min elems.length perm.length := by
      simpa [List.length_zip] using hi
    refine ⟨i, (lt_min_iff.mp hlen).1, (lt_min_iff.mp hlen).2, ?_⟩
    rw [← hqi, List.getElem_zip]
    rw [List.getD_eq_getElem elems defaultElem (lt_min_iff.mp hlen).1,
      List.getD_eq_getElem perm 0 (lt_min_iff.mp hlen).2]
  · rintro ⟨i, h1, h2, rfl⟩
    have hmin : i < (elems.zip perm).length := by
      rw [List.length_zip] ; exact lt_min_iff.mpr ⟨h1, h2⟩
    refine List.mem_iff_getElem.mpr ⟨i, hmin, ?_⟩
    rw [List.getElem_zip, List.getD_eq_getElem elems defaultElem h1,
      List.getD_eq_getElem perm 0 h2]

/-- Indexed characterisation of the aligned argument pairs scanned by
`isValidPermutation`: a pair arises from some left element position `i`
and parameter position `k`, concrete or lattice, matched against right
element `perm[i]`. -/
theorem mem_alignedPairs_iff (L R : NormalisedClause) (perm : List Nat)
    (p : String × String) :
    p ∈ alignedPairs L R perm ↔
      ∃ i, i < L.clauseElements.length ∧ i < perm.length ∧
        ((∃ k, k < (L.clauseElements.getD i defaultElem).concreteParams.length ∧
            k < (R.clauseElements.getD (perm.getD i 0) defaultElem).concreteParams.length ∧
            p = ((L.clauseElements.getD i defaultElem).concreteParams.getD k "",
              (R.clauseElements.getD (perm.getD i 0) defaultElem).concreteParams.getD k "")) ∨
         (∃ k, k < (L.clauseElements.getD i defaultElem).latticeParams.length ∧
            k < (R.clauseElements.getD (perm.getD i 0) defaultElem).latticeParams.length ∧
            p = ((L.clauseElements.getD i defaultElem).latticeParams.getD k "",
              (R.clauseElements.getD (perm.getD i 0) defaultElem).latticeParams.getD k ""))) := by
  unfold alignedPairs
  rw [List.mem_flatMap]
  constructor
  · rintro ⟨q, hq, hp⟩
    rcases (mem_zip_elems_iff L.clauseElements perm q).mp hq with ⟨i, h1, h2, rfl⟩
    rcases List.mem_append.mp hp with h | h
    · rcases (mem_zip_iff_getD _ _ p).mp h with ⟨k, k1, k2, rfl⟩
      exact ⟨i, h1, h2, Or.inl ⟨k, k1, k2, rfl⟩⟩
    · rcases (mem_zip_iff_getD _ _ p).mp h with ⟨k, k1, k2, rfl⟩
      exact ⟨i, h1, h2, Or.inr ⟨k, k1, k2, rfl⟩⟩
  · rintro ⟨i, h1, h2, hcase⟩
    refine ⟨(L.clauseElements.getD i defaultElem, perm.getD i 0),
      (mem_zip_elems_iff L.clauseElements perm _).mpr ⟨i, h1, h2, rfl⟩, ?_⟩
    rcases hcase with ⟨k, k1, k2, rfl⟩ | ⟨k, k1, k2, rfl⟩
    · exact List.mem_append.mpr (Or.inl ((mem_zip_iff_getD _ _ _).mpr ⟨k, k1, k2, rfl⟩))
    · exact List.mem_append.mpr (Or.inr ((mem_zip_iff_getD _ _ _).mpr ⟨k, k1, k2, rfl⟩))

/-- A string is an occurring parameter exactly when it sits at some
position of some element. -/
theorem mem_occParams_iff (N : NormalisedClause) (s : String) :
    s ∈ occParams N ↔
      ∃ i, i < N.clauseElements.length ∧
        s ∈ (N.clauseElements.getD i defaultElem).params := by
  unfold occParams
  rw [List.mem_flatMap]
  constructor
  · rintro ⟨e, he, hs⟩
    rcases List.mem_iff_getElem.mp he with ⟨i, hi, rfl⟩
    refine ⟨i, hi, ?_⟩
    rw [List.getD_eq_getElem _ _ hi]
    exact hs
  · rintro ⟨i, hi, hs⟩
    refine ⟨N.clauseElements.getD i defaultElem, ?_, hs⟩
    rw [List.getD_eq_getElem _ _ hi]
    exact List.getElem_mem hi

/-- The inverse of a permutation given as a list of column choices. -/
def invPermOf (perm : List Nat) : List Nat :=
  (List.range perm.length).map (fun j => perm.indexOf j)

/-- A duplicate-free list of `n` numbers each below `n` contains every
number below `n`. -/
theorem perm_coverage (perm : List Nat) (hnodup : perm.Nodup)
    (hbound : ∀ i, i < perm.length → perm.getD i 0 < perm.length) :
    ∀ j, j < perm.length → j ∈ perm := by
  intro j hj
  have hsub : perm.toFinset ⊆ (List.range perm.length).toFinset := by
    intro x hx
    rw [List.mem_toFinset] at hx
    rcases List.mem_iff_getElem.mp hx with ⟨i, hi, rfl⟩
    rw [List.mem_toFinset, List.mem_range]
    have := hbound i hi
    rw [List.getD_eq_getElem _ _ hi] at this
    exact this
  have hcard : (List.range perm.length).toFinset.card ≤ perm.toFinset.card := by
    rw [List.toFinset_card_of_nodup hnodup,
      List.toFinset_card_of_nodup (List.nodup_range _)]
    simp
  have heq := Finset.eq_of_subset_of_card_le hsub hcard
  have hjr : j ∈ (List.range perm.length).toFinset := by
    rw [List.mem_toFinset, List.mem_range] ; exact hj
  rw [← heq, List.mem_toFinset] at hjr
  exact hjr

/-- Length of the inverse permutation. -/
theorem invPermOf_length (perm : List Nat) : (invPermOf perm).length = perm.length := by
  simp [invPermOf]

/-- Entries of the inverse permutation. -/
theorem invPermOf_getD (perm : List Nat) (j : Nat) (hj : j < perm.length) :
    (invPermOf perm).getD j 0 = perm.indexOf j := by
  have hlt : j < (invPermOf perm).length := by rw [invPermOf_length] ; exact hj
  rw [List.getD_eq_getElem _ _ hlt]
  simp [invPermOf]

/-- The inverse permutation is a right inverse: following it by the
permutation recovers the column. -/
theorem invPermOf_right (perm : List Nat) (hnodup : perm.Nodup)
    (hbound : ∀ i, i < perm.length → perm.getD i 0 < perm.length)
    (j : Nat) (hj : j < perm.length) :
    perm.indexOf j < perm.length ∧ perm.getD (perm.indexOf j) 0 = j := by
  have hmem : j ∈ perm := perm_coverage perm hnodup hbound j hj
  have hidx : perm.indexOf j < perm.length := List.indexOf_lt_length.mpr hmem
  refine ⟨hidx, ?_⟩
  rw [List.getD_eq_getElem _ _ hidx]
  exact List.getElem_indexOf hidx

/-- The inverse permutation is a left inverse on row indices. -/
theorem invPermOf_left (perm : List Nat) (hnodup : perm.Nodup)
    (i : Nat) (hi : i < perm.length) :
    perm.indexOf (perm.getD i 0) = i := by
  rw [List.getD_eq_getElem _ _ hi]
  exact List.indexOf_getElem hnodup i hi

/-- The inverse permutation is duplicate-free. -/
theorem invPermOf_nodup (perm : List Nat) (hnodup : perm.Nodup)
    (hbound : ∀ i, i < perm.length → perm.getD i 0 < perm.length) :
    (invPermOf perm).Nodup := by
  refine List.Nodup.map_on ?_ (List.nodup_range _)
  intro x hx y hy hxy
  rw [List.mem_range] at hx hy
  have hx2 := (invPermOf_right perm hnodup hbound x hx).2
  have hy2 := (invPermOf_right perm hnodup hbound y hy).2
  rw [hxy] at hx2
  rw [hx2] at hy2
  exact hy2

/-- Under well-formedness the occurring parameters of a normalised
clause are exactly its variables, its constants and (when the clause has
a body) the base scope token, so their number is determined by the
variable count, the constant set and whether the clause has a body. -/
theorem occParams_toFinset_card (N : NormalisedClause) (h : wfNC N = true) :
    (occParams N).toFinset.card =
      N.vars.length + N.constants.length +
        (if 1 < N.clauseElements.length then 1 else 0) := by
  obtain ⟨_, _, _, hvn, hcn, hdisj, hcover, hbv, hbc, hvo, hco, hbase⟩ := wfNC_props N h
  have hseteq : (occParams N).toFinset =
      N.vars.toFinset ∪ N.constants.toFinset ∪
        (if 1 < N.clauseElements.length then {baseScope} else (∅ : Finset String)) := by
    apply Finset.ext
    intro s
    simp only [List.mem_toFinset, Finset.mem_union]
    constructor
    · intro hs
      rcases hcover s hs with hv | hc | hb
      · exact Or.inl (Or.inl hv)
      · exact Or.inl (Or.inr hc)
      · refine Or.inr ?_
        rw [hb] at hs
        rw [if_pos (hbase.mp hs)]
        exact Finset.mem_singleton.mpr hb
    · intro hs
      rcases hs with (hv | hc) | hb
      · exact hvo s hv
      · exact hco s hc
      · by_cases hlen : 1 < N.clauseElements.length
        · rw [if_pos hlen] at hb
          simp only [Finset.mem_singleton] at hb
          rw [hb]
          exact hbase.mpr hlen
        · rw [if_neg hlen] at hb
          exact absurd hb (Finset.not_mem_empty s)
  rw [hseteq]
  have hd1 : Disjoint N.vars.toFinset N.constants.toFinset := by
    rw [Finset.disjoint_left]
    intro a ha hb
    rw [List.mem_toFinset] at ha hb
    exact hdisj a ha hb
  have hd2 : Disjoint (N.vars.toFinset ∪ N.constants.toFinset)
      (if 1 < N.clauseElements.length then {baseScope} else (∅ : Finset String)) := by
    rw [Finset.disjoint_right]
    intro a ha hb
    by_cases hlen : 1 < N.clauseElements.length
    · rw [if_pos hlen, Finset.mem_singleton] at ha
      rcases Finset.mem_union.mp hb with hv | hc
      · rw [List.mem_toFinset] at hv
        rw [ha] at hv
        exact hbv hv
      · rw [List.mem_toFinset] at hc
        rw [ha] at hc
        exact hbc hc
    · rw [if_neg hlen] at ha
      exact absurd ha (Finset.not_mem_empty a)
  rw [Finset.card_union_of_disjoint hd2, Finset.card_union_of_disjoint hd1]
  rw [List.toFinset_card_of_nodup hvn, List.toFinset_card_of_nodup hcn]
  congr 1
  by_cases hlen : 1 < N.clauseElements.length
  · rw [if_pos hlen, if_pos hlen]
    simp
  · rw [if_neg hlen, if_neg hlen]
    simp

/-- The check sequence of `areBijectivelyEquivalent`, unrolled. -/
theorem areBijectivelyEquivalent_eq_true_iff (L R : NormalisedClause) :
    areBijectivelyEquivalent L R = true ↔
      L.fullyNormalised = true ∧ R.fullyNormalised = true ∧
        L.clauseElements.length = R.clauseElements.length ∧
        (L.clauseElements.getD 0 defaultElem).concreteParams.length =
          (R.clauseElements.getD 0 defaultElem).concreteParams.length ∧
        (L.clauseElements.getD 0 defaultElem).latticeParams.length =
          (R.clauseElements.getD 0 defaultElem).latticeParams.length ∧
        L.vars.length = R.vars.length ∧
        L.constants = R.constants ∧
        existsValidPermutation L R = true := by
  unfold areBijectivelyEquivalent
  constructor
  · intro h
    split_ifs at h with h1 h2 h3 h4 h5 h6
    have hfn : L.fullyNormalised = true ∧ R.fullyNormalised = true := by
      simp only [Bool.or_eq_true, Bool.not_eq_true', not_or, Bool.not_eq_false] at h1
      exact h1
    exact ⟨hfn.1, hfn.2, not_ne_iff.mp h2, not_ne_iff.mp h3, not_ne_iff.mp h4,
      not_ne_iff.mp h5, not_ne_iff.mp h6, h⟩
  · rintro ⟨hf1, hf2, hlen, hc0, hl0, hv, hc, hex⟩
    split_ifs with h1 h2 h3 h4 h5 h6
    · simp only [Bool.or_eq_true, Bool.not_eq_true'] at h1
      rcases h1 with h | h
      · rw [hf1] at h ; exact Bool.noConfusion h
      · rw [hf2] at h ; exact Bool.noConfusion h
    · exact absurd hlen h2
    · exact absurd hc0 h3
    · exact absurd hl0 h4
    · exact absurd hv h5
    · exact absurd hc h6
    · exact hex

/-- Extraction of the arity-compatibility hypothesis at a pair of
element positions with equal names. -/
theorem arityCompatible_at (L R : NormalisedClause)
    (hA : arityCompatible L R = true) (i j : Nat)
    (hi : i < L.clauseElements.length) (hj : j < R.clauseElements.length)
    (hname : (L.clauseElements.getD i defaultElem).name =
      (R.clauseElements.getD j defaultElem).name) :
    (L.clauseElements.getD i defaultElem).concreteParams.length =
        (R.clauseElements.getD j defaultElem).concreteParams.length ∧
      (L.clauseElements.getD i defaultElem).latticeParams.length =
        (R.clauseElements.getD j defaultElem).latticeParams.length := by
  simp only [arityCompatible, List.all_eq_true, decide_eq_true_eq] at hA
  have he : L.clauseElements.getD i defaultElem ∈ L.clauseElements := by
    rw [List.getD_eq_getElem _ _ hi] ; exact List.getElem_mem hi
  have hr : R.clauseElements.getD j defaultElem ∈ R.clauseElements := by
    rw [List.getD_eq_getElem _ _ hj] ; exact List.getElem_mem hj
  rcases hA _ he _ hr with hne | hok
  · exact absurd hname hne
  · exact hok

/-- The left component of an aligned pair occurs in the left operand. -/
theorem aligned_fst_mem_occ (L R : NormalisedClause) (perm : List Nat) :
    ∀ p ∈ alignedPairs L R perm, p.1 ∈ occParams L := by
  intro p hp
  rcases (mem_alignedPairs_iff L R perm p).mp hp with ⟨i, hi, _, hcase⟩
  refine (mem_occParams_iff L p.1).mpr ⟨i, hi, ?_⟩
  rcases hcase with ⟨k, k1, _, hpk⟩ | ⟨k, k1, _, hpk⟩
  · refine List.mem_append.mpr (Or.inl ?_)
    rw [hpk]
    rw [List.getD_eq_getElem _ _ k1]
    exact List.getElem_mem k1
  · refine List.mem_append.mpr (Or.inr ?_)
    rw [hpk]
    rw [List.getD_eq_getElem _ _ k1]
    exact List.getElem_mem k1

/-- The right component of an aligned pair occurs in the right operand,
provided the permutation stays within the right element list. -/
theorem aligned_snd_mem_occ (L R : NormalisedClause) (perm : List Nat)
    (hbound : ∀ i, i < perm.length → perm.getD i 0 < R.clauseElements.length) :
    ∀ p ∈ alignedPairs L R perm, p.2 ∈ occParams R := by
  intro p hp
  rcases (mem_alignedPairs_iff L R perm p).mp hp with ⟨i, _, hip, hcase⟩
  refine (mem_occParams_iff R p.2).mpr ⟨perm.getD i 0, hbound i hip, ?_⟩
  rcases hcase with ⟨k, _, k2, hpk⟩ | ⟨k, _, k2, hpk⟩
  · refine List.mem_append.mpr (Or.inl ?_)
    rw [hpk]
    rw [List.getD_eq_getElem _ _ k2]
    exact List.getElem_mem k2
  · refine List.mem_append.mpr (Or.inr ?_)
    rw [hpk]
    rw [List.getD_eq_getElem _ _ k2]
    exact List.getElem_mem k2

/-- Every occurring left parameter is aligned with some right
parameter. -/
theorem aligned_total (L R : NormalisedClause) (perm : List Nat)
    (hplen : perm.length = L.clauseElements.length)
    (hbound : ∀ i, i < perm.length → perm.getD i 0 < R.clauseElements.length)
    (hnames : ∀ i, i < perm.length →
      (L.clauseElements.getD i defaultElem).name =
        (R.clauseElements.getD (perm.getD i 0) defaultElem).name)
    (hA : arityCompatible L R = true) :
    ∀ s ∈ occParams L, ∃ t, (s, t) ∈ alignedPairs L R perm := by
  intro s hs
  rcases (mem_occParams_iff L s).mp hs with ⟨i, hi, hsp⟩
  have hip : i < perm.length := by rw [hplen] ; exact hi
  have harr := arityCompatible_at L R hA i (perm.getD i 0) hi (hbound i hip)
    (hnames i hip)
  rcases List.mem_append.mp hsp with hc | hl
  · rcases List.mem_iff_getElem.mp hc with ⟨k, hk, hks⟩
    have hseq : s = (L.clauseElements.getD i defaultElem).concreteParams.getD k "" := by
      rw [List.getD_eq_getElem _ _ hk] ; exact hks.symm
    refine ⟨(R.clauseElements.getD (perm.getD i 0) defaultElem).concreteParams.getD k "",
      (mem_alignedPairs_iff L R perm _).mpr
        ⟨i, hi, hip, Or.inl ⟨k, hk, ?_, ?_⟩⟩⟩
    · rw [← harr.1] ; exact hk
    · rw [hseq]
  · rcases List.mem_iff_getElem.mp hl with ⟨k, hk, hks⟩
    have hseq : s = (L.clauseElements.getD i defaultElem).latticeParams.getD k "" := by
      rw [List.getD_eq_getElem _ _ hk] ; exact hks.symm
    refine ⟨(R.clauseElements.getD (perm.getD i 0) defaultElem).latticeParams.getD k "",
      (mem_alignedPairs_iff L R perm _).mpr
        ⟨i, hi, hip, Or.inr ⟨k, hk, ?_, ?_⟩⟩⟩
    · rw [← harr.2] ; exact hk
    · rw [hseq]

/-- Every occurring right parameter is aligned with some left
parameter. -/
theorem aligned_surj (L R : NormalisedClause) (perm : List Nat)
    (hplen : perm.length = L.clauseElements.length)
    (hRlen : L.clauseElements.length = R.clauseElements.length)
    (hnodup : perm.Nodup)
    (hboundp : ∀ i, i < perm.length → perm.getD i 0 < perm.length)
    (hnames : ∀ i, i < perm.length →
      (L.clauseElements.getD i defaultElem).name =
        (R.clauseElements.getD (perm.getD i 0) defaultElem).name)
    (hA : arityCompatible L R = true) :
    ∀ t ∈ occParams R, ∃ s, (s, t) ∈ alignedPairs L R perm := by
  intro t ht
  rcases (mem_occParams_iff R t).mp ht with ⟨j, hj, htp⟩
  have hjp : j < perm.length := by rw [hplen, hRlen] ; exact hj
  rcases List.mem_iff_getElem.mp (perm_coverage perm hnodup hboundp j hjp) with
    ⟨i, hi, hij⟩
  have hgetD : perm.getD i 0 = j := by
    rw [List.getD_eq_getElem _ _ hi] ; exact hij
  have hiL : i < L.clauseElements.length := by rw [← hplen] ; exact hi
  have hnm := hnames i hi
  rw [hgetD] at hnm
  have harr := arityCompatible_at L R hA i j hiL hj hnm
  rcases List.mem_append.mp htp with hc | hl
  · rcases List.mem_iff_getElem.mp hc with ⟨k, hk, hks⟩
    have hteq : t = (R.clauseElements.getD j defaultElem).concreteParams.getD k "" := by
      rw [List.getD_eq_getElem _ _ hk] ; exact hks.symm
    refine ⟨(L.clauseElements.getD i defaultElem).concreteParams.getD k "",
      (mem_alignedPairs_iff L R perm _).mpr
        ⟨i, hiL, hi, Or.inl ⟨k, ?_, ?_, ?_⟩⟩⟩
    · rw [harr.1] ; exact hk
    · rw [hgetD] ; exact hk
    · rw [hteq, hgetD]
  · rcases List.mem_iff_getElem.mp hl with ⟨k, hk, hks⟩
    have hteq : t = (R.clauseElements.getD j defaultElem).latticeParams.getD k "" := by
      rw [List.getD_eq_getElem _ _ hk] ; exact hks.symm
    refine ⟨(L.clauseElements.getD i defaultElem).latticeParams.getD k "",
      (mem_alignedPairs_iff L R perm _).mpr
        ⟨i, hiL, hi, Or.inr ⟨k, ?_, ?_, ?_⟩⟩⟩
    · rw [harr.2] ; exact hk
    · rw [hgetD] ; exact hk
    · rw [hteq, hgetD]

/-- Each pair aligned by the inverse permutation is the flip of a pair
aligned by the permutation. -/
theorem aligned_flip (L R : NormalisedClause) (perm : List Nat)
    (hplen : perm.length = L.clauseElements.length)
    (hnodup : perm.Nodup)
    (hboundp : ∀ i, i < perm.length → perm.getD i 0 < perm.length) :
    ∀ t s, (t, s) ∈ alignedPairs R L (invPermOf perm) →
      (s, t) ∈ alignedPairs L R perm := by
  intro t s h
  rcases (mem_alignedPairs_iff R L (invPermOf perm) (t, s)).mp h with
    ⟨j, hj, hjlen, hcase⟩
  have hjp : j < perm.length := by rw [← invPermOf_length perm] ; exact hjlen
  have hidx := invPermOf_getD perm j hjp
  have hr := invPermOf_right perm hnodup hboundp j hjp
  have hiL : perm.indexOf j < L.clauseElements.length := by
    rw [← hplen] ; exact hr.1
  rcases hcase with ⟨k, k1, k2, hpair⟩ | ⟨k, k1, k2, hpair⟩
  · rw [hidx] at k2 hpair
    rw [Prod.mk.injEq] at hpair
    refine (mem_alignedPairs_iff L R perm (s, t)).mpr
      ⟨perm.indexOf j, hiL, hr.1, Or.inl ⟨k, k2, ?_, ?_⟩⟩
    · rw [hr.2] ; exact k1
    · rw [Prod.mk.injEq, hr.2]
      exact ⟨hpair.2, hpair.1⟩
  · rw [hidx] at k2 hpair
    rw [Prod.mk.injEq] at hpair
    refine (mem_alignedPairs_iff L R perm (s, t)).mpr
      ⟨perm.indexOf j, hiL, hr.1, Or.inr ⟨k, k2, ?_, ?_⟩⟩
    · rw [hr.2] ; exact k1
    · rw [Prod.mk.injEq, hr.2]
      exact ⟨hpair.2, hpair.1⟩

/-- One direction of the symmetry of `areBijectivelyEquivalent` on
well-formed, arity-compatible operands. -/
theorem areBijectivelyEquivalent_flip (L R : NormalisedClause)
    (hwL : wfNC L = true) (hwR : wfNC R = true)
    (hA : arityCompatible L R = true)
    (h : areBijectivelyEquivalent L R = true) :
    areBijectivelyEquivalent R L = true := by
  obtain ⟨hfn1, hfn2, hlen, hc0, hl0, hv, hc, hex⟩ :=
    (areBijectivelyEquivalent_eq_true_iff L R).mp h
  obtain ⟨perm, hplen, hsel, hnodup, hvalid⟩ :=
    (existsValidPermutation_iff L R).mp hex
  have hselF : ∀ i, i < perm.length →
      perm.getD i 0 ∈ (List.range L.clauseElements.length).filter (fun j =>
        (L.clauseElements.getD i defaultElem).name =
          (R.clauseElements.getD j defaultElem).name) := by
    intro i hi
    have := hsel i hi
    rw [validMoves_getD L R i (by rw [← hplen] ; exact hi)] at this
    exact this
  have hboundp : ∀ i, i < perm.length → perm.getD i 0 < perm.length := by
    intro i hi
    have := (List.mem_filter.mp (hselF i hi)).1
    rw [List.mem_range] at this
    rw [hplen]
    exact this
  have hboundR : ∀ i, i < perm.length → perm.getD i 0 < R.clauseElements.length := by
    intro i hi
    rw [← hlen, ← hplen]
    exact hboundp i hi
  have hnames : ∀ i, i < perm.length →
      (L.clauseElements.getD i defaultElem).name =
        (R.clauseElements.getD (perm.getD i 0) defaultElem).name := by
    intro i hi
    have := (List.mem_filter.mp (hselF i hi)).2
    rw [decide_eq_true_eq] at this
    exact this
  obtain ⟨_, _, hLne, _, _, _, _, _, _, hLvo, hLco, _⟩ := wfNC_props L hwL
  obtain ⟨_, _, hRne, _, _, _, _, _, _, hRvo, hRco, _⟩ := wfNC_props R hwR
  have hne : ∀ p ∈ alignedPairs L R perm, p.2 ≠ "" := by
    intro p hp
    exact hRne p.2 (aligned_snd_mem_occ L R perm hboundR p hp)
  obtain ⟨f, hfconst, hfpairs⟩ := (isValidPermutation_iff L R perm hwL hne).mp hvalid
  have himg : ∀ s ∈ occParams L, f s ∈ occParams R := by
    intro s hs
    obtain ⟨t, htp⟩ := aligned_total L R perm hplen hboundR hnames hA s hs
    have hto := aligned_snd_mem_occ L R perm hboundR (s, t) htp
    have hft := hfpairs (s, t) htp
    rw [hft]
    exact hto
  have hsurj : ∀ t ∈ occParams R, ∃ s ∈ occParams L, f s = t := by
    intro t ht
    obtain ⟨s, hst⟩ := aligned_surj L R perm hplen hlen hnodup hboundp hnames hA t ht
    exact ⟨s, aligned_fst_mem_occ L R perm (s, t) hst, hfpairs (s, t) hst⟩
  have hcard : (occParams L).toFinset.card = (occParams R).toFinset.card := by
    rw [occParams_toFinset_card L hwL, occParams_toFinset_card R hwR, hv, hc, hlen]
  have hinj : ∀ s1 ∈ occParams L, ∀ s2 ∈ occParams L, f s1 = f s2 → s1 = s2 := by
    intro s1 h1 s2 h2 heq
    exact Finset.inj_on_of_surj_on_of_card_le
      (s := (occParams L).toFinset) (t := (occParams R).toFinset)
      (fun a _ => f a)
      (fun a ha => by
        rw [List.mem_toFinset] at ha ⊢
        exact himg a ha)
      (fun b hb => by
        rw [List.mem_toFinset] at hb
        obtain ⟨a, ha, hab⟩ := hsurj b hb
        exact ⟨a, List.mem_toFinset.mpr ha, hab⟩)
      (le_of_eq hcard) (List.mem_toFinset.mpr h1) (List.mem_toFinset.mpr h2) heq
  have hg : ∀ t, ∃ gt, (t ∈ occParams R → gt ∈ occParams L ∧ f gt = t) ∧
      (t ∉ occParams R → gt = t) := by
    intro t
    by_cases ht : t ∈ occParams R
    · obtain ⟨a, ha, hab⟩ := hsurj t ht
      exact ⟨a, fun _ => ⟨ha, hab⟩, fun hn => absurd ht hn⟩
    · exact ⟨t, fun hmem => absurd hmem ht, fun _ => rfl⟩
  choose g hg1 hg2 using hg
  refine (areBijectivelyEquivalent_eq_true_iff R L).mpr
    ⟨hfn2, hfn1, hlen.symm, hc0.symm, hl0.symm, hv.symm, hc.symm, ?_⟩
  refine (existsValidPermutation_iff R L).mpr
    ⟨invPermOf perm, ?_, ?_, invPermOf_nodup perm hnodup hboundp, ?_⟩
  · rw [invPermOf_length, hplen, hlen]
  · intro j hj
    rw [invPermOf_length] at hj
    have hjR : j < R.clauseElements.length := by rw [← hlen, ← hplen] ; exact hj
    rw [validMoves_getD R L j hjR]
    have hr := invPermOf_right perm hnodup hboundp j hj
    rw [invPermOf_getD perm j hj]
    refine List.mem_filter.mpr ⟨?_, ?_⟩
    · rw [List.mem_range, ← hlen, ← hplen]
      exact hr.1
    · rw [decide_eq_true_eq]
      have hn := hnames (perm.indexOf j) hr.1
      rw [hr.2] at hn
      exact hn.symm
  · have hboundL2 : ∀ i, i < (invPermOf perm).length →
        (invPermOf perm).getD i 0 < L.clauseElements.length := by
      intro j hj
      rw [invPermOf_length] at hj
      rw [invPermOf_getD perm j hj, ← hplen]
      exact (invPermOf_right perm hnodup hboundp j hj).1
    have hne2 : ∀ p ∈ alignedPairs R L (invPermOf perm), p.2 ≠ "" := by
      intro p hp
      exact hLne p.2 (aligned_snd_mem_occ R L (invPermOf perm) hboundL2 p hp)
    refine (isValidPermutation_iff R L (invPermOf perm) hwR hne2).mpr ⟨g, ?_, ?_⟩
    · intro cc hcc
      have hcoR : cc ∈ occParams R := hRco cc hcc
      have hgc := hg1 cc hcoR
      have hccL : cc ∈ L.constants := by rw [hc] ; exact hcc
      have hfc : f cc = cc := hfconst cc hccL
      have hcoL : cc ∈ occParams L := hLco cc hccL
      refine hinj (g cc) hgc.1 cc hcoL ?_
      rw [hgc.2, hfc]
    · rintro ⟨t, s⟩ hp
      have hflip := aligned_flip L R perm hplen hnodup hboundp t s hp
      have hfst : f s = t := hfpairs (s, t) hflip
      have hsL : s ∈ occParams L := aligned_fst_mem_occ L R perm (s, t) hflip
      have htR : t ∈ occParams R := aligned_snd_mem_occ L R perm hboundR (s, t) hflip
      have hgt := hg1 t htR
      refine hinj (g t) hgt.1 s hsL ?_
      rw [hgt.2, hfst]

/-- Arity compatibility is symmetric. -/
theorem arityCompatible_symm (L R : NormalisedClause)
    (hA : arityCompatible L R = true) : arityCompatible R L = true := by
  simp only [arityCompatible, List.all_eq_true, decide_eq_true_eq] at hA ⊢
  intro r hr e he
  rcases hA e he r hr with hne | hok
  · exact Or.inl (fun heq => hne heq.symm)
  · exact Or.inr ⟨hok.1.symm, hok.2.symm⟩

/-- C6: `areBijectivelyEquivalent` is symmetric on operands satisfying
the procedure's preconditions — well-formed normalised clauses (as
produced by the normalisation analysis) whose same-named elements agree
in arities. -/
theorem areBijectivelyEquivalent_symm (L R : NormalisedClause)
    (hwL : wfNC L = true) (hwR : wfNC R = true)
    (hA : arityCompatible L R = true) :
    areBijectivelyEquivalent L R = areBijectivelyEquivalent R L := by
  cases h1 : areBijectivelyEquivalent L R with
  | true => exact (areBijectivelyEquivalent_flip L R hwL hwR hA h1).symm
  | false =>
      cases h2 : areBijectivelyEquivalent R L with
      | false => rfl
      | true =>
          have hback := areBijectivelyEquivalent_flip R L hwR hwL
            (arityCompatible_symm L R hA) h2
          rw [h1] at hback
          exact Bool.noConfusion hback

/-- Witness for C6: the normalisations of `h(x) :- a(x).` and
`h(y) :- a(y).` are well-formed and arity-compatible, and the
equivalence procedure agrees in both argument orders on them. -/
theorem areBijectivelyEquivalent_symm_witness :
    wfNC normL = true ∧ wfNC normR = true ∧
      arityCompatible normL normR = true ∧
      areBijectivelyEquivalent normL normR = areBijectivelyEquivalent normR normL :=
  ⟨by decide, by decide, by decide,
    areBijectivelyEquivalent_symm normL normR (by decide) (by decide) (by decide)⟩
end Souffle
